import Mathlib

/-!
Verification development for the AncientWorld capped, resumable,
deduplicating download engine.

The definitions below are a shallow embedding of the Python sources:

  * `tools/download_capped.py`   — the capped downloader main loop
    (`pick_batch`, `mark_candidate`, `head_size`, `download_file`, `main`);
  * `tools/download_until_cap.py` — the earlier variant of the same loop
    (its `download_file` has the same temp-then-rename structure);
  * `tools/download_parallel_sources.py` — the per-source parallel
    downloader (its `hamming_distance` / inline perceptual check);
  * `tools/dedupe_exact.py` and `tools/dedupe_perceptual.py` — the two
    offline deduplication passes;
  * `tools/retry_failed.py`      — the bulk Failed → Pending reset;
  * `tools/iiif_harvest_manifest.py` and `tools/init_db_two_stage.py`
    — manifest expansion and the unique index on (source, image_url).

Modelling conventions:
  * SQLite rows become Lean structures; a table is a `List` of rows.
    Metadata columns no claim mentions (query, title, license, artist, ...)
    are omitted.
  * The filesystem is an association list from path to byte content
    (bytes are `List Nat`).  Shard directories and the file extension
    computed by `safe_ext` only decorate the path, so the model keys files
    by the bare `name_base` of `download_capped.main`; two candidates
    share a destination exactly when they share a `name_base`.
  * The cryptographic digest is modelled as the identity on content
    (a collision-free abstraction of SHA-256): two files have equal
    digests exactly when their bytes are equal.
  * Network traffic is an oracle: for each candidate id the oracle gives
    the HEAD response (status and optional Content-Length) and the
    outcome of each GET attempt (full body, or an error that may have
    left a partial temp file).  Stats counters other than
    `total_downloaded_bytes` are not modelled (no claim mentions them).
-/

namespace AncientWorld

/-- Candidate lifecycle status, the `status` column strings of the
`candidates` table: `pending`, `downloading`, `downloaded`, `skipped`,
`failed`, `duplicate`, `perceptual_duplicate`. -/
inductive Status where
  | pending
  | downloading
  | downloaded
  | skipped
  | failed
  | duplicate
  | perceptualDuplicate
deriving DecidableEq, Repr

/-- One row of the `candidates` table (`init_db_two_stage.py`), restricted
to the columns the claims mention. -/
structure Cand where
  cid : Nat
  source : String
  url : String
  sha1 : Option String
  mime : Option String
  width : Option Nat
  height : Option Nat
  status : Status
  httpStatus : Option Nat
  contentLength : Option Nat
  downloadedBytes : Option Nat
  localPath : Option String
  sha256local : Option (List Nat)
  phash : Option Nat
  error : Option String
deriving DecidableEq, Repr

/-- A freshly discovered candidate: all download fields NULL, status
`pending` (the default of the `status` column). -/
def mkPending (cid : Nat) (source url : String) (sha1 : Option String)
    (width height : Option Nat) : Cand :=
  ⟨cid, source, url, sha1, none, width, height, .pending,
   none, none, none, none, none, none, none⟩

/-- The filesystem: an association from path to byte content. -/
abbrev FS := List (String × List Nat)

/-- Content stored at a path, if the file exists. -/
def fsGet (fs : FS) (p : String) : Option (List Nat) :=
  match fs.find? (fun e => e.1 == p) with
  | some e => some e.2
  | none => none

/-- Write (or overwrite) the file at a path. -/
def fsSet (fs : FS) (p : String) (b : List Nat) : FS :=
  (p, b) :: fs.filter (fun e => e.1 != p)

/-- `unlink`: remove the file at a path. -/
def fsRemove (fs : FS) (p : String) : FS :=
  fs.filter (fun e => e.1 != p)

/-- `compute_sha256` of both downloaders and of `dedupe_exact.py`,
abstracted as a collision-free digest: the digest of a byte string is the
byte string itself, so digest equality is exactly content equality. -/
def compute_sha256 (b : List Nat) : List Nat := b

/-- `name_base` of `download_capped.main`: the discovery `sha1` hint
lower-cased when present, else `"id" + str(cid)`. -/
def destName (sha1 : Option String) (cid : Nat) : String :=
  match sha1 with
  | some s => s.toLower
  | none => "id" ++ toString cid

/-- `width IS NULL OR width >= 900` of `pick_batch`. -/
def widthOk (c : Cand) : Bool :=
  match c.width with
  | none => true
  | some w => 900 ≤ w

/-- `height IS NULL OR height >= 900` of `pick_batch`. -/
def heightOk (c : Cand) : Bool :=
  match c.height with
  | none => true
  | some h => 900 ≤ h

/-- The WHERE clause of `pick_batch` in `download_capped.py`:
status pending and the two dimension guards. -/
def eligible (c : Cand) : Bool :=
  c.status == .pending && widthOk c && heightOk c

/-- Sort key of `ORDER BY width DESC, height DESC`; SQLite sorts NULL as
the smallest value, and every eligible non-NULL width is ≥ 900, so NULL
is represented by 0. -/
def dimKey (c : Cand) : Nat × Nat :=
  (c.width.getD 0, c.height.getD 0)

/-- Strict lexicographic comparison of sort keys. -/
def keyLt (p q : Nat × Nat) : Bool :=
  decide (p.1 < q.1 ∨ (p.1 = q.1 ∧ p.2 < q.2))

/-- Stable insertion for the descending `ORDER BY` of `pick_batch`:
`c` moves past exactly the strictly larger keys. -/
def insertByDim (c : Cand) : List Cand → List Cand
  | [] => [c]
  | d :: ds => if keyLt (dimKey c) (dimKey d) then d :: insertByDim c ds else c :: d :: ds

/-- Stable insertion sort realising `ORDER BY width DESC, height DESC`. -/
def sortByDim (l : List Cand) : List Cand :=
  l.foldr insertByDim []

/-- `pick_batch` of `download_capped.py`: a pure SELECT returning up to
`limit` pending candidates that pass the dimension guards, largest
first.  It performs no UPDATE: the database is not an argument it could
modify, mirroring that the SQL is a bare SELECT. -/
def pick_batch (db : List Cand) (limit : Nat) : List Cand :=
  (sortByDim (db.filter eligible)).take limit

/-- `UPDATE candidates SET ... WHERE id=cid`, applied to every row whose
id matches (ids are unique in the real table by PRIMARY KEY). -/
def updRow : List Cand → Nat → (Cand → Cand) → List Cand
  | [], _, _ => []
  | c :: rest, cid, f => (if c.cid == cid then f c else c) :: updRow rest cid f

/-- `mark_candidate(con, cid, "downloading")`. -/
def markDownloading (db : List Cand) (cid : Nat) : List Cand :=
  updRow db cid fun c => { c with status := .downloading }

/-- The `dest.exists()` commit of `download_capped.main`: status
`downloaded`, `local_path`, `downloaded_bytes` = on-disk size,
`sha256_local` = digest of the existing file. -/
def markDownloadedExisting (db : List Cand) (cid : Nat) (path : String)
    (size : Nat) (sha : List Nat) : List Cand :=
  updRow db cid fun c =>
    { c with status := .downloaded, localPath := some path,
             downloadedBytes := some size, sha256local := some sha }

/-- The over-cap skip commit of `download_capped.main`. -/
def markSkippedCap (db : List Cand) (cid : Nat) (http : Option Nat)
    (cl : Nat) : List Cand :=
  updRow db cid fun c =>
    { c with status := .skipped, httpStatus := http,
             contentLength := some cl, error := some "would exceed storage cap" }

/-- The successful-download commit of `download_capped.main`. -/
def markDownloadedNet (db : List Cand) (cid : Nat) (http : Nat)
    (cl : Option Nat) (size : Nat) (path : String) (sha : List Nat) : List Cand :=
  updRow db cid fun c =>
    { c with status := .downloaded, httpStatus := some http,
             contentLength := cl, downloadedBytes := some size,
             localPath := some path, sha256local := some sha }

/-- The retries-exhausted commit of `download_capped.main`: status
`failed` with the error recorded. -/
def markFailed (db : List Cand) (cid : Nat) (msg : String) : List Cand :=
  updRow db cid fun c => { c with status := .failed, error := some msg }

/-- `retry_failed.py`: `UPDATE candidates SET status='pending',
error=NULL WHERE status='failed'`.  Only `failed` rows are touched. -/
def resetFailed (db : List Cand) : List Cand :=
  db.map fun c =>
    if c.status == .failed then { c with status := .pending, error := none } else c

/-- Outcome of one GET attempt inside the retry loop: either the full
body with its HTTP status, or an exception whose streaming may have left
some bytes in the `.part` temp file (`none` = the request failed before
the temp file was opened). -/
inductive AttemptOutcome where
  | ok (bytes : List Nat) (http : Nat)
  | err (written : Option (List Nat)) (msg : String)
deriving DecidableEq, Repr

/-- Network behaviour for one candidate: the HEAD reply of `head_size`
(status and optional Content-Length) and the successive GET outcomes. -/
structure Fetch where
  headStatus : Option Nat
  headLen : Option Nat
  attempts : List AttemptOutcome
deriving DecidableEq, Repr

/-- Result of the retry loop: bytes on success, last error message on
failure; `calls` counts GET requests issued, `tmpAfter` the content of
the `.part` temp path when the loop ends. -/
inductive FetchResult where
  | success (bytes : List Nat) (http : Nat) (calls : Nat) (tmpAfter : Option (List Nat))
  | failure (msg : String) (calls : Nat) (tmpAfter : Option (List Nat))
deriving DecidableEq, Repr

/-- Temp-path content after one failing attempt: an attempt that
opened the temp file and wrote `p` overwrote it; one that failed before
opening left the previous content in place. -/
def updTmp (w t0 : Option (List Nat)) : Option (List Nat) :=
  match w with
  | some p => some p
  | none => t0

/-- The `for attempt in range(MAX_RETRIES)` loop of
`download_capped.main` around `download_file`: stop at the first
success; after the last failed attempt give up with that error.  A
failed attempt that wrote bytes leaves them at the temp path (the code
has no cleanup). -/
def runAttempts : Nat → List AttemptOutcome → Option (List Nat) → FetchResult
  | 0, _, t0 => .failure "no attempts" 0 t0
  | _ + 1, [], t0 => .failure "no attempts" 0 t0
  | _ + 1, .ok b h :: _, _ => .success b h 1 none
  | n + 1, .err w m :: rest, t0 =>
      if n = 0 then .failure m 1 (updTmp w t0)
      else
        match runAttempts n rest (updTmp w t0) with
        | .success b h k t => .success b h (k + 1) t
        | .failure m2 k t => .failure m2 (k + 1) t

/-- What one iteration of the candidate loop did: final status, bytes
added to the `total_downloaded_bytes` stat, network requests issued. -/
structure Outcome where
  ocid : Nat
  final : Status
  netBytes : Nat
  netCalls : Nat
deriving DecidableEq, Repr

/-- State threaded through a run of `download_capped.main`: the
`candidates` table, the image files on disk, the `.part` temp files,
the in-process `total_bytes` variable, the persisted
`total_downloaded_bytes` stat, and a log of per-candidate outcomes. -/
structure EngineState where
  db : List Cand
  fs : FS
  tmp : FS
  localTotal : Nat
  statBytes : Nat
  outs : List Outcome
deriving DecidableEq, Repr

/-- Engine state at process start: `total_bytes = get_total_bytes(con)`,
so the local variable and the persisted stat agree. -/
def initState (db : List Cand) (fs : FS) (total0 : Nat) : EngineState :=
  ⟨db, fs, [], total0, total0, []⟩

/-- The GET phase of one candidate iteration (shared by the
known-length and unknown-length branches): run the retry loop; on
success rename temp to dest, add the bytes to both totals and persist
the stat (`set_total_bytes`), commit `downloaded`; after the last
failure commit `failed` with the error — the temp file is left as the
loop left it. -/
def attemptPhase (maxRetries : Nat) (f : Fetch) (st : EngineState)
    (c : Cand) (db1 : List Cand) (name : String) : EngineState :=
  let key := name ++ ".part"
  match runAttempts maxRetries f.attempts (fsGet st.tmp key) with
  | .success b http calls _ =>
      let newTotal := st.localTotal + b.length
      { db := markDownloadedNet db1 c.cid http f.headLen b.length name (compute_sha256 b),
        fs := fsSet st.fs name b,
        tmp := fsRemove st.tmp key,
        localTotal := newTotal,
        statBytes := newTotal,
        outs := st.outs ++ [⟨c.cid, .downloaded, b.length, 1 + calls⟩] }
  | .failure msg calls tmpAfter =>
      { db := markFailed db1 c.cid msg,
        fs := st.fs,
        tmp := (match tmpAfter with
                | some p => fsSet st.tmp key p
                | none => fsRemove st.tmp key),
        localTotal := st.localTotal,
        statBytes := st.statBytes,
        outs := st.outs ++ [⟨c.cid, .failed, 0, 1 + calls⟩] }

/-- One iteration of the candidate loop of `download_capped.main`
(lines 216–304): mark `downloading`; if the destination file already
exists commit it as `downloaded` from the existing file with no network
request and no change to either byte total; otherwise HEAD the URL and,
when a non-zero Content-Length would overflow the cap, commit `skipped`
and force the loop to exit by setting the local total to the cap
(`total_bytes = MAX_STORAGE_BYTES`) — the persisted stat is NOT updated
there; otherwise enter the retry loop.  The Content-Length guard
mirrors Python truthiness: a reported length of 0 is falsy and skips
the check. -/
def candidateStep (cap maxRetries : Nat) (oracle : Nat → Fetch)
    (st : EngineState) (c : Cand) : EngineState :=
  let db1 := markDownloading st.db c.cid
  let name := destName c.sha1 c.cid
  match fsGet st.fs name with
  | some content =>
      { st with
        db := markDownloadedExisting db1 c.cid name content.length (compute_sha256 content),
        outs := st.outs ++ [⟨c.cid, .downloaded, 0, 0⟩] }
  | none =>
      let f := oracle c.cid
      match f.headLen with
      | some cl =>
          if cl ≠ 0 ∧ cap < st.localTotal + cl then
            { st with
              db := markSkippedCap db1 c.cid f.headStatus cl,
              localTotal := cap,
              outs := st.outs ++ [⟨c.cid, .skipped, 0, 1⟩] }
          else attemptPhase maxRetries f st c db1 name
      | none => attemptPhase maxRetries f st c db1 name

/-- The `for cid, ... in batch` loop: before each candidate, stop as
soon as the local total has reached the cap. -/
def processBatch (cap maxRetries : Nat) (oracle : Nat → Fetch) :
    EngineState → List Cand → EngineState
  | st, [] => st
  | st, c :: rest =>
      if cap ≤ st.localTotal then st
      else processBatch cap maxRetries oracle (candidateStep cap maxRetries oracle st c) rest

/-- The `while total_bytes < MAX_STORAGE_BYTES` loop of
`download_capped.main`: repeatedly pick a batch and process it until
the cap is reached or no pending candidate remains.  `fuel` bounds the
number of batch rounds; every concrete run is reproduced by a large
enough fuel. -/
def runLoop (cap maxRetries batchSize : Nat) (oracle : Nat → Fetch) :
    Nat → EngineState → EngineState
  | 0, st => st
  | fuel + 1, st =>
      if st.localTotal < cap then
        let batch := pick_batch st.db batchSize
        if batch.isEmpty then st
        else runLoop cap maxRetries batchSize oracle fuel
          (processBatch cap maxRetries oracle st batch)
      else st

/-- `BATCH_SIZE` of `config/storage_config.py`. -/
def BATCH_SIZE : Nat := 200

/-- `MAX_RETRIES` of `config/storage_config.py`. -/
def MAX_RETRIES : Nat := 3

/-- `PERCEPTUAL_HASH_THRESHOLD` of `config/storage_config.py`. -/
def PERCEPTUAL_HASH_THRESHOLD : Nat := 5

/-! ### `download_file` at chunk granularity

`download_file` of `download_capped.py` (identical structure in
`download_until_cap.py`): stream the response in chunks into
`dest.with_suffix(dest.suffix + ".part")`, then `os.replace` the temp
file onto the destination.  The model records the visible filesystem
state (temp content, destination content) after opening the temp file,
after each chunk write, and after the rename. -/

/-- Contents of the temp path and of the final path at one instant. -/
structure DLState where
  tmpContent : Option (List Nat)
  destContent : Option (List Nat)
deriving DecidableEq, Repr

/-- The sequence of filesystem states produced by `download_file` on a
destination initially holding `dest0`: state `i` (for `i ≤ length
chunks`) is after the first `i` chunk writes — the temp file holds the
concatenation of those chunks and the destination is untouched — and
the final state is after the atomic rename: the destination holds the
whole body and the temp file is gone.  (The Python `if chunk:` guard
only skips empty chunks, which concatenate to nothing.) -/
def download_file_states (dest0 : Option (List Nat)) (chunks : List (List Nat)) : List DLState :=
  ((List.range (chunks.length + 1)).map fun i => ⟨some ((chunks.take i).flatten), dest0⟩)
    ++ [⟨none, some chunks.flatten⟩]

/-- Return value of `download_file`: `(bytes_written, status)` with the
destination now holding the full body. -/
def download_file (chunks : List (List Nat)) : Nat :=
  chunks.flatten.length

/-! ### Perceptual hashing (`download_parallel_sources.py`) -/

/-- Fuel-indexed binary digit sum, enough fuel making it the population
count of the binary representation. -/
def popCountAux : Nat → Nat → Nat
  | 0, _ => 0
  | fuel + 1, n => if n = 0 then 0 else n % 2 + popCountAux fuel (n / 2)

/-- `bin(x).count("1")`: number of 1 bits. -/
def popCount (n : Nat) : Nat := popCountAux n n

/-- `hamming_distance` of `download_parallel_sources.py`:
`bin(hash1 ^ hash2).count("1")`. -/
def hamming_distance (h1 h2 : Nat) : Nat := popCount (h1 ^^^ h2)

/-- The SQL of the inline duplicate check in `download_from_source`:
`SELECT id, local_path FROM candidates WHERE phash=? AND
status='downloaded' AND id != ?` — note it matches the stored `phash`
by *equality* only. -/
def perceptualDupQuery (db : List Cand) (cid : Nat) (ph : Nat) : List Cand :=
  db.filter fun c => c.phash == some ph && c.status == .downloaded && c.cid != cid

/-- The inline near-duplicate decision of `download_from_source`
(lines 221–242): scan the equality-matched rows and flag the first one
whose computed distance is within the threshold.  The code computes
`dist = hamming_distance(phash, phash)` — the new hash against itself —
exactly as written (its own comment reads "Should compare with stored
hash"). -/
def perceptualCheckCode (db : List Cand) (cid : Nat) (ph : Nat) (threshold : Nat) : Option Nat :=
  match (perceptualDupQuery db cid ph).find?
      (fun _ => decide (hamming_distance ph ph ≤ threshold)) with
  | some e => some e.cid
  | none => none

/-- Modelled from the spec: the near-duplicate test the spec describes —
"compares a new hash against all prior hashes using a distance
function, first match wins" — i.e. the new hash is within the Hamming
threshold of the *stored* hash of some other Downloaded candidate.
This is the intended behaviour the code's own comment names; the code
itself (`perceptualCheckCode`) filters by hash equality instead. -/
def perceptualCheckSpec (db : List Cand) (cid : Nat) (ph : Nat) (threshold : Nat) : Option Nat :=
  match db.find? (fun c => c.status == .downloaded && c.cid != cid &&
      (match c.phash with
       | some q => decide (hamming_distance ph q ≤ threshold)
       | none => false)) with
  | some e => some e.cid
  | none => none

/-! ### Offline dedup passes (`dedupe_exact.py`, `dedupe_perceptual.py`) -/

/-- `dedupe_exact.py`: `UPDATE candidates SET status='duplicate',
downloaded_bytes=0 WHERE id=?`.  `local_path` is NOT cleared. -/
def markDuplicate (db : List Cand) (cid : Nat) : List Cand :=
  updRow db cid fun c => { c with status := .duplicate, downloadedBytes := some 0 }

/-- `dedupe_perceptual.py`: `UPDATE candidates SET
status='perceptual_duplicate', downloaded_bytes=0 WHERE id=?`.
`local_path` is NOT cleared. -/
def markPerceptualDup (db : List Cand) (cid : Nat) : List Cand :=
  updRow db cid fun c => { c with status := .perceptualDuplicate, downloadedBytes := some 0 }

/-- `UPDATE candidates SET phash=? WHERE id=?` of `dedupe_perceptual.py`. -/
def setPhash (db : List Cand) (cid : Nat) (ph : Nat) : List Cand :=
  updRow db cid fun c => { c with phash := some ph }

/-- Ascending insertion realising the `ORDER BY id ASC` of both dedup
passes. -/
def insertById (c : Cand) : List Cand → List Cand
  | [] => [c]
  | d :: ds => if c.cid < d.cid then c :: d :: ds else d :: insertById c ds

/-- Stable ascending sort by id. -/
def sortById (l : List Cand) : List Cand :=
  l.foldr insertById []

/-- The row set both dedup passes iterate: `SELECT ... FROM candidates
WHERE status='downloaded' AND local_path IS NOT NULL ORDER BY id ASC`,
fetched once before the loop. -/
def dedupeRows (db : List Cand) : List Cand :=
  sortById (db.filter fun c => c.status == .downloaded && c.localPath.isSome)

/-- State of the `dedupe_exact.py` loop: the table, the filesystem, the
`seen_hashes` keys, and `bytes_freed`. -/
structure DedupState where
  ddb : List Cand
  dfs : FS
  seen : List (List Nat)
  freed : Nat
deriving DecidableEq, Repr

/-- One iteration of the `dedupe_exact.py` loop: skip rows whose file is
gone; take the stored digest or recompute it (`existing_sha256 or
compute_sha256(path)`); on a repeated digest unlink the file, count the
freed bytes and mark the row `duplicate` with zero bytes; otherwise
remember the digest (first occurrence kept). -/
def dedupeExactStep (st : DedupState) (row : Cand) : DedupState :=
  match row.localPath with
  | none => st
  | some p =>
      match fsGet st.dfs p with
      | none => st
      | some content =>
          let sha := match row.sha256local with
            | some s => s
            | none => compute_sha256 content
          if sha ∈ st.seen then
            { ddb := markDuplicate st.ddb row.cid,
              dfs := fsRemove st.dfs p,
              seen := st.seen,
              freed := st.freed + content.length }
          else { st with seen := sha :: st.seen }

/-- `dedupe_exact.main`: fold the loop body over the downloaded rows
fetched up-front; the final `freed` is then subtracted from the
`total_downloaded_bytes` stat. -/
def dedupe_exact (db : List Cand) (fs : FS) : DedupState :=
  (dedupeRows db).foldl dedupeExactStep ⟨db, fs, [], 0⟩

/-- State of the `dedupe_perceptual.py` loop: table, filesystem,
`seen_hashes` as (hash, id) pairs, and `bytes_freed`. -/
structure PDedupState where
  pdb : List Cand
  pfs : FS
  pseen : List (Nat × Nat)
  pfreed : Nat
deriving DecidableEq, Repr

/-- One iteration of the `dedupe_perceptual.py` loop.  `imgHash` models
`imagehash.phash(Image.open(path))`: `none` when decoding raises (the
exception is caught and the row is skipped).  A freshly computed hash
is written back to the row.  The scan marks the row
`perceptual_duplicate` (file unlinked, bytes freed) when any
already-seen hash is within the threshold, else records the hash. -/
def dedupePercStep (imgHash : String → Option Nat) (threshold : Nat)
    (st : PDedupState) (row : Cand) : PDedupState :=
  match row.localPath with
  | none => st
  | some p =>
      match fsGet st.pfs p with
      | none => st
      | some content =>
          let hdb : Option (Nat × List Cand) :=
            match row.phash with
            | some q => some (q, st.pdb)
            | none =>
                match imgHash p with
                | some q => some (q, setPhash st.pdb row.cid q)
                | none => none
          match hdb with
          | none => st
          | some (ph, db1) =>
              match st.pseen.find? (fun e => decide (hamming_distance ph e.1 ≤ threshold)) with
              | some _ =>
                  { pdb := markPerceptualDup db1 row.cid,
                    pfs := fsRemove st.pfs p,
                    pseen := st.pseen,
                    pfreed := st.pfreed + content.length }
              | none =>
                  { pdb := db1, pfs := st.pfs,
                    pseen := (ph, row.cid) :: st.pseen, pfreed := st.pfreed }

/-- `dedupe_perceptual.main`: fold the loop body over the downloaded
rows fetched up-front. -/
def dedupe_perceptual (imgHash : String → Option Nat) (threshold : Nat)
    (db : List Cand) (fs : FS) : PDedupState :=
  (dedupeRows db).foldl (dedupePercStep imgHash threshold) ⟨db, fs, [], 0⟩

/-! ### Manifest expansion (`iiif_harvest_manifest.py`) -/

/-- Manifest lifecycle status strings of the `manifests` table. -/
inductive MStatus where
  | mpending
  | mdownloading
  | mdone
  | mfailed
deriving DecidableEq, Repr

/-- One row of the `manifests` table, restricted to the columns the
claims mention. -/
structure ManifestRow where
  mid : Nat
  msource : String
  manifestUrl : String
  mstatus : MStatus
deriving DecidableEq, Repr

/-- `UPDATE manifests SET status=? WHERE id=?`. -/
def setMStatus (ms : List ManifestRow) (mid : Nat) (s : MStatus) : List ManifestRow :=
  ms.map fun m => if m.mid == mid then { m with mstatus := s } else m

/-- The order-preserving, first-occurrence deduplication at the end of
`find_iiif_image_services` (the `seen` set walk). -/
def uniquePreserve (seen : List String) : List String → List String
  | [] => []
  | s :: rest =>
      if s ∈ seen then uniquePreserve seen rest
      else s :: uniquePreserve (s :: seen) rest

/-- `service_id.rstrip("/")`: drop trailing slash characters. -/
def rstripSlash (s : String) : String :=
  ⟨(s.data.reverse.dropWhile (fun ch => ch == '/')).reverse⟩

/-- `iiif_full_image_url`: strip trailing slashes from the service id
and append the fixed full-resolution suffix. -/
def iiif_full_image_url (sid : String) : String :=
  rstripSlash sid ++ "/full/max/0/default.jpg"

/-- `INSERT OR IGNORE INTO candidates(source, ..., image_url, status)
VALUES (..., 'pending')` under the unique index
`idx_candidates_unique_url ON candidates(source, image_url)`
(`init_db_two_stage.py`): a row with the same (source, image_url) makes
the insert a no-op; otherwise a fresh pending candidate is appended. -/
def insertCandidate (db : List Cand) (nextId : Nat) (src url : String) : List Cand × Nat :=
  if db.any fun c => c.source == src && c.url == url then (db, nextId)
  else (db ++ [mkPending nextId src url none none none], nextId + 1)

/-- State of `iiif_harvest_manifest.main`: the `manifests` table, the
`candidates` table, and the next AUTOINCREMENT id. -/
structure HState where
  manifests : List ManifestRow
  cdb : List Cand
  nextId : Nat
deriving DecidableEq, Repr

/-- Processing of one pending manifest in `iiif_harvest_manifest.main`:
mark it `downloading`; fetch and parse (the oracle returns the raw
service-id list `find_iiif_image_services` walks out of the document,
or an error); deduplicate the ids preserving order; INSERT OR IGNORE
one pending candidate per unique full-image URL; mark the manifest
`done` — also when zero services were found — or `failed` on any
fetch/parse error. -/
def processManifest (oracle : Nat → Except String (List String))
    (st : HState) (m : ManifestRow) : HState :=
  let ms1 := setMStatus st.manifests m.mid .mdownloading
  match oracle m.mid with
  | .error _ => { st with manifests := setMStatus ms1 m.mid .mfailed }
  | .ok raw =>
      let sids := uniquePreserve [] raw
      let ins := sids.foldl
        (fun a sid => insertCandidate a.1 a.2 m.msource (iiif_full_image_url sid))
        (st.cdb, st.nextId)
      { manifests := setMStatus ms1 m.mid .mdone, cdb := ins.1, nextId := ins.2 }

/-- `SELECT ... FROM manifests WHERE status='pending' ORDER BY id ASC`. -/
def pendingManifests (ms : List ManifestRow) : List ManifestRow :=
  ms.filter fun m => m.mstatus == .mpending

/-- One full pass of `iiif_harvest_manifest.main`: process every
pending manifest.  The script loops over batches until the pending
SELECT is empty; since each processed manifest leaves `pending`, one
full pass reaches that fixpoint and a second invocation finds nothing
pending. -/
def harvest (oracle : Nat → Except String (List String)) (st : HState) : HState :=
  (pendingManifests st.manifests).foldl (processManifest oracle) st

/-! ## Derived notions used by the claim statements -/

/-- `SELECT * FROM candidates WHERE id=?`: the first (in the real table,
the unique) row with the given id. -/
def getRow : List Cand → Nat → Option Cand
  | [], _ => none
  | c :: rest, cid => if c.cid == cid then some c else getRow rest cid

/-- Well-formedness of the table: ids are unique (the PRIMARY KEY). -/
def NodupIds (db : List Cand) : Prop :=
  (db.map fun c => c.cid).Nodup

instance (db : List Cand) : Decidable (NodupIds db) :=
  List.nodupDecidable _

/-- Bytes a run added to the persisted `total_downloaded_bytes` stat,
summed over the per-candidate outcome log. -/
def sumNetBytes (outs : List Outcome) : Nat :=
  (outs.map fun o => o.netBytes).sum

/-- The quantity named by the budget claim: the sum of
`downloaded_bytes` over rows whose status is `downloaded`. -/
def sumDownloadedBytes (db : List Cand) : Nat :=
  ((db.filter fun c => c.status == .downloaded).map fun c => c.downloadedBytes.getD 0).sum

/-- Number of rows `pick_batch` could still return. -/
def countEligible (db : List Cand) : Nat :=
  db.countP eligible

/-- The invariant of claim C8: `local_path` is non-NULL exactly on
`downloaded` rows. -/
def pathInv (db : List Cand) : Prop :=
  ∀ c ∈ db, (c.localPath ≠ none ↔ c.status = .downloaded)

instance (db : List Cand) : Decidable (pathInv db) :=
  List.decidableBAll _ db

/-- An attempt outcome consistent with the HEAD-reported length: any
successful body fits in the announced Content-Length.  (Failing
attempts are unconstrained.) -/
def okWithin (len : Option Nat) : AttemptOutcome → Prop
  | .ok b _ => match len with
    | some l => b.length ≤ l
    | none => False
  | .err _ _ => True

instance (len : Option Nat) (a : AttemptOutcome) : Decidable (okWithin len a) :=
  match a, len with
  | .ok b _, some l => (inferInstance : Decidable (b.length ≤ l))
  | .ok _ _, none => (inferInstance : Decidable False)
  | .err _ _, _ => (inferInstance : Decidable True)

/-- A network oracle whose HEAD replies are honest upper bounds for the
bodies it later serves. -/
def accurateOracle (oracle : Nat → Fetch) : Prop :=
  ∀ cid : Nat, ∀ a ∈ (oracle cid).attempts, okWithin (oracle cid).headLen a

/-! ## Helper lemmas -/

theorem mem_insertByDim {x c : Cand} {l : List Cand} (h : x ∈ insertByDim c l) :
    x = c ∨ x ∈ l := by
  induction l with
  | nil =>
      simp only [insertByDim, List.mem_singleton] at h
      exact Or.inl h
  | cons d ds ih =>
      simp only [insertByDim] at h
      split at h
      · rcases List.mem_cons.mp h with h1 | h2
        · exact Or.inr (List.mem_cons.mpr (Or.inl h1))
        · rcases ih h2 with h3 | h4
          · exact Or.inl h3
          · exact Or.inr (List.mem_cons.mpr (Or.inr h4))
      · rcases List.mem_cons.mp h with h1 | h2
        · exact Or.inl h1
        · exact Or.inr h2

theorem mem_sortByDim {x : Cand} {l : List Cand} (h : x ∈ sortByDim l) : x ∈ l := by
  induction l with
  | nil => simp [sortByDim] at h
  | cons d ds ih =>
      have h2 : x ∈ insertByDim d (sortByDim ds) := h
      rcases mem_insertByDim h2 with h3 | h4
      · simp [h3]
      · exact List.mem_cons.mpr (Or.inr (ih h4))

theorem length_insertByDim (c : Cand) (l : List Cand) :
    (insertByDim c l).length = l.length + 1 := by
  induction l with
  | nil => rfl
  | cons d ds ih =>
      simp only [insertByDim]
      split
      · simp [ih]
      · simp

theorem length_sortByDim (l : List Cand) : (sortByDim l).length = l.length := by
  induction l with
  | nil => rfl
  | cons d ds ih =>
      show (insertByDim d (sortByDim ds)).length = ds.length + 1
      rw [length_insertByDim, ih]

theorem pick_batch_mem {db : List Cand} {n : Nat} {c : Cand} (h : c ∈ pick_batch db n) :
    c ∈ db ∧ eligible c = true := by
  have h1 : c ∈ sortByDim (db.filter eligible) := (List.take_sublist _ _).subset h
  have h2 : c ∈ db.filter eligible := mem_sortByDim h1
  exact List.mem_filter.mp h2

theorem eligible_pending {c : Cand} (h : eligible c = true) : c.status = .pending := by
  have h1 := (Bool.and_eq_true _ _).mp ((Bool.and_eq_true _ _).mp h).1
  exact eq_of_beq h1.1

theorem updRow_cid_map (db : List Cand) (i : Nat) (f : Cand → Cand)
    (hf : ∀ c, (f c).cid = c.cid) :
    (updRow db i f).map (fun c => c.cid) = db.map fun c => c.cid := by
  induction db with
  | nil => rfl
  | cons d ds ih =>
      simp only [updRow, List.map_cons]
      rw [ih]
      by_cases hd : (d.cid == i) = true
      · simp [hd, hf d]
      · have hf2 : (d.cid == i) = false := Bool.not_eq_true _ ▸ hd
        simp [hf2]

theorem getRow_updRow_self {db : List Cand} {i : Nat} {f : Cand → Cand} {r : Cand}
    (hf : ∀ c, (f c).cid = c.cid) (h : getRow db i = some r) :
    getRow (updRow db i f) i = some (f r) := by
  induction db with
  | nil => simp [getRow] at h
  | cons d ds ih =>
      by_cases hd : (d.cid == i) = true
      · have hr : d = r := by
          simpa [getRow, hd] using h
        subst hr
        have hfd : ((f d).cid == i) = true := by rw [hf d]; exact hd
        simp [getRow, updRow, hd, hfd]
      · have hfalse : (d.cid == i) = false := Bool.not_eq_true _ ▸ hd
        have h2 : getRow ds i = some r := by
          simpa [getRow, hfalse] using h
        have h3 := ih h2
        simp [getRow, updRow, hfalse, h3]

theorem getRow_updRow_ne {db : List Cand} {i x : Nat} {f : Cand → Cand}
    (hf : ∀ c, (f c).cid = c.cid) (hne : i ≠ x) :
    getRow (updRow db i f) x = getRow db x := by
  induction db with
  | nil => rfl
  | cons d ds ih =>
      by_cases hd : (d.cid == i) = true
      · have hdx : (d.cid == x) = false := by
          have hdi : d.cid = i := eq_of_beq hd
          simp [hdi, hne]
        have hdx2 : ((f d).cid == x) = false := by
          rw [hf d]; exact hdx
        simp [getRow, updRow, hd, hdx, hdx2, ih]
      · have hfalse : (d.cid == i) = false := Bool.not_eq_true _ ▸ hd
        by_cases hdx : (d.cid == x) = true
        · simp [getRow, updRow, hfalse, hdx]
        · have hdx2 : (d.cid == x) = false := Bool.not_eq_true _ ▸ hdx
          simp [getRow, updRow, hfalse, hdx2, ih]

theorem getRow_markDownloading_self {db : List Cand} {i : Nat} {r : Cand}
    (h : getRow db i = some r) :
    getRow (markDownloading db i) i = some { r with status := Status.downloading } := by
  simp only [markDownloading]
  exact getRow_updRow_self (fun _ => rfl) h

theorem getRow_markDownloadedExisting_self {db : List Cand} {i : Nat} {r : Cand}
    (h : getRow db i = some r) (path : String) (size : Nat) (sha : List Nat) :
    getRow (markDownloadedExisting db i path size sha) i
      = some
        { r with status := Status.downloaded, localPath := some path,
                 downloadedBytes := some size, sha256local := some sha } := by
  simp only [markDownloadedExisting]
  exact getRow_updRow_self (fun _ => rfl) h

theorem getRow_markSkippedCap_self {db : List Cand} {i : Nat} {r : Cand}
    (h : getRow db i = some r) (http : Option Nat) (cl : Nat) :
    getRow (markSkippedCap db i http cl) i
      = some
        { r with status := Status.skipped, httpStatus := http,
                 contentLength := some cl, error := some "would exceed storage cap" } := by
  simp only [markSkippedCap]
  exact getRow_updRow_self (fun _ => rfl) h

theorem getRow_markFailed_self {db : List Cand} {i : Nat} {r : Cand}
    (h : getRow db i = some r) (msg : String) :
    getRow (markFailed db i msg) i
      = some { r with status := Status.failed, error := some msg } := by
  simp only [markFailed]
  exact getRow_updRow_self (fun _ => rfl) h

theorem getRow_markDownloadedNet_self {db : List Cand} {i : Nat} {r : Cand}
    (h : getRow db i = some r) (http : Nat) (cl : Option Nat) (size : Nat)
    (path : String) (sha : List Nat) :
    getRow (markDownloadedNet db i http cl size path sha) i
      = some
        { r with status := Status.downloaded, httpStatus := some http,
                 contentLength := cl, downloadedBytes := some size,
                 localPath := some path, sha256local := some sha } := by
  simp only [markDownloadedNet]
  exact getRow_updRow_self (fun _ => rfl) h

theorem getRow_mem {db : List Cand} {x : Nat} {r : Cand} (h : getRow db x = some r) :
    r ∈ db ∧ r.cid = x := by
  induction db with
  | nil => simp [getRow] at h
  | cons d ds ih =>
      by_cases hd : (d.cid == x) = true
      · have hr : d = r := by simpa [getRow, hd] using h
        subst hr
        exact ⟨List.mem_cons_self _ _, eq_of_beq hd⟩
      · have hfalse : (d.cid == x) = false := Bool.not_eq_true _ ▸ hd
        have h2 : getRow ds x = some r := by simpa [getRow, hfalse] using h
        have h3 := ih h2
        exact ⟨List.mem_cons.mpr (Or.inr h3.1), h3.2⟩

theorem getRow_of_mem {db : List Cand} (hn : NodupIds db) {r : Cand} (hr : r ∈ db) :
    getRow db r.cid = some r := by
  induction db with
  | nil => simp at hr
  | cons d ds ih =>
      have hn2 : NodupIds ds := by
        have := List.nodup_cons.mp hn
        exact this.2
      rcases List.mem_cons.mp hr with h1 | h2
      · subst h1
        simp [getRow]
      · by_cases hd : (d.cid == r.cid) = true
        · exfalso
          have hmem : r.cid ∈ ds.map fun c => c.cid := List.mem_map.mpr ⟨r, h2, rfl⟩
          have hnc := (List.nodup_cons.mp hn).1
          refine hnc ?_
          show d.cid ∈ List.map (fun c => c.cid) ds
          rw [eq_of_beq hd]
          exact hmem
        · have hfalse : (d.cid == r.cid) = false := Bool.not_eq_true _ ▸ hd
          simp [getRow, hfalse, ih hn2 h2]

theorem nodup_unique_cid {db : List Cand} (h : NodupIds db) {a b : Cand}
    (ha : a ∈ db) (hb : b ∈ db) (hab : a.cid = b.cid) : a = b :=
  List.inj_on_of_nodup_map h ha hb hab

theorem fsGet_fsSet_self (fs : FS) (p : String) (b : List Nat) :
    fsGet (fsSet fs p b) p = some b := by
  simp [fsGet, fsSet, List.find?_cons]

theorem fsGet_fsRemove_self (fs : FS) (p : String) : fsGet (fsRemove fs p) p = none := by
  induction fs with
  | nil => rfl
  | cons e rest ih =>
      by_cases he : (e.1 == p) = true
      · have h1 : (e.1 != p) = false := by simp [bne, he]
        show fsGet (List.filter (fun x => x.1 != p) (e :: rest)) p = none
        rw [List.filter_cons, h1]
        exact ih
      · have hf : (e.1 == p) = false := Bool.not_eq_true _ ▸ he
        have h1 : (e.1 != p) = true := by simp [bne, hf]
        show fsGet (List.filter (fun x => x.1 != p) (e :: rest)) p = none
        rw [List.filter_cons, h1]
        show fsGet (e :: List.filter (fun x => x.1 != p) rest) p = none
        simp only [fsGet, List.find?_cons, hf]
        exact ih

/-! ## Claim C4 -/

/-- Failing input for C4: the store already holds a Downloaded
candidate whose stored perceptual hash is 0; a new image with hash 1 is
within distance 1 ≤ 5 of it. -/
def C4db : List Cand :=
  [{ mkPending 1 "met" "u1" none none none with
      status := .downloaded, phash := some 0, localPath := some "p1",
      downloadedBytes := some 4 }]

/-- C4: the claim says the near-duplicate test compares the new hash
against all prior stored hashes with the Hamming-distance function.
The code (`download_parallel_sources.download_from_source`) instead
selects only rows whose stored `phash` is *equal* to the new hash and
then computes `hamming_distance(phash, phash)` — the new hash against
itself (its own comment says "Should compare with stored hash").  At
this input the new hash 1 is at distance 1 ≤ threshold 5 from the
stored hash 0, so the spec-described test flags candidate 1, but the
code's test finds nothing and the new candidate is committed as
Downloaded: the code contradicts its stated intent. -/
theorem C4_perceptual_equality_bug :
    perceptualCheckCode C4db 2 1 PERCEPTUAL_HASH_THRESHOLD = none
    ∧ hamming_distance 1 0 = 1
    ∧ 1 ≤ PERCEPTUAL_HASH_THRESHOLD
    ∧ perceptualCheckSpec C4db 2 1 PERCEPTUAL_HASH_THRESHOLD = some 1 := by
  refine ⟨rfl, rfl, by decide, rfl⟩

/-! ## Claim C2 -/

/-- A store with a single pending candidate. -/
def C2db : List Cand := [mkPending 1 "wikimedia" "u1" none none none]

/-- C2 counterexample: `pick_batch` returns a row, yet after the call
the stored status of that row is still `pending`, not `downloading` —
the SQL is a bare SELECT, so the claimed atomic Pending → Downloading
transition did not happen (and, the store being unchanged, an
immediately repeated call returns the very same row). -/
theorem C2_pick_batch_claim_cex :
    pick_batch C2db BATCH_SIZE ≠ []
    ∧ ¬ (∀ c ∈ pick_batch C2db BATCH_SIZE,
          ∀ d ∈ C2db, d.cid = c.cid → d.status = Status.downloading) := by
  decide

/-- C2 amended: `pick_batch` is read-only — it returns up to `limit`
rows that are stored as `pending` (and pass the size filter), and every
returned row is still present, unchanged and `pending`, in the store;
the Pending → Downloading transition is performed separately, one
candidate at a time, by `mark_candidate` in the main loop, so a second
`pick_batch` issued before those marks can receive the same rows. -/
theorem C2_pick_batch_select_only (db : List Cand) (limit : Nat) (c : Cand)
    (hc : c ∈ pick_batch db limit) :
    c.status = .pending ∧ c ∈ db := by
  have h := pick_batch_mem hc
  exact ⟨eligible_pending h.2, h.1⟩

theorem C2_pick_batch_select_only_witness :
    (mkPending 1 "wikimedia" "u1" none none none).status = Status.pending
    ∧ mkPending 1 "wikimedia" "u1" none none none ∈ C2db :=
  C2_pick_batch_select_only C2db BATCH_SIZE _ (by decide)

/-! ## Claim C6 -/

/-- C6: at every instant before the final rename the destination path
still holds exactly what it held before the download (no partial data
ever appears there — all bytes go to the `.part` temp path), and the
last step installs the complete body at the destination by the atomic
rename, removing the temp file. -/
theorem C6_temp_then_rename (dest0 : Option (List Nat)) (chunks : List (List Nat)) :
    (∀ s ∈ (download_file_states dest0 chunks).dropLast, s.destContent = dest0)
    ∧ (download_file_states dest0 chunks).getLast? = some ⟨none, some chunks.flatten⟩ := by
  constructor
  · intro s hs
    rw [download_file_states, List.dropLast_concat] at hs
    rcases List.mem_map.mp hs with ⟨i, _, hi⟩
    rw [← hi]
  · rw [download_file_states, List.getLast?_concat]

theorem C6_temp_then_rename_witness :
    (⟨some [1], some [7]⟩ : DLState) ∈ (download_file_states (some [7]) [[1], [2, 3]]).dropLast
    ∧ (⟨some [1], some [7]⟩ : DLState).destContent = some [7] :=
  ⟨by decide, (C6_temp_then_rename (some [7]) [[1], [2, 3]]).1 _ (by decide)⟩

/-! ## Claim C7 -/

/-- True of attempts that raised an exception. -/
def isErr : AttemptOutcome → Bool
  | .ok _ _ => false
  | .err _ _ => true

/-- The message of the last attempt — the `str(e)` recorded by the
final `mark_candidate(con, cid, "failed", error=str(e))`. -/
def lastErr (atts : List AttemptOutcome) : String :=
  match atts.getLast? with
  | some (.err _ m) => m
  | _ => "no attempts"

/-- Content of the `.part` temp path after a sequence of attempts,
starting from `t0`: each attempt that opened the temp file overwrote
it, each attempt that failed before opening left it alone. -/
def foldTmp (t0 : Option (List Nat)) : List AttemptOutcome → Option (List Nat)
  | [] => t0
  | .ok b _ :: rest => foldTmp (some b) rest
  | .err w _ :: rest => foldTmp (updTmp w t0) rest

/-- The un-skipped HEAD outcomes: the branch of `download_capped.main`
that does NOT take the over-cap skip (Content-Length absent, reported
as 0, or fitting under the cap). -/
def noSkipHead (cap localTotal : Nat) (len : Option Nat) : Prop :=
  match len with
  | some cl => cl = 0 ∨ localTotal + cl ≤ cap
  | none => True

instance (cap lt : Nat) (len : Option Nat) : Decidable (noSkipHead cap lt len) :=
  match len with
  | some cl => (inferInstance : Decidable (cl = 0 ∨ lt + cl ≤ cap))
  | none => (inferInstance : Decidable True)

theorem runAttempts_err_step (n : Nat) (w : Option (List Nat)) (m : String)
    (rest : List AttemptOutcome) (t0 : Option (List Nat)) :
    runAttempts (n + 1) (.err w m :: rest) t0
      = if n = 0 then .failure m 1 (updTmp w t0)
        else
          match runAttempts n rest (updTmp w t0) with
          | .success bb hh k t => .success bb hh (k + 1) t
          | .failure m2 k t => .failure m2 (k + 1) t := rfl

theorem lastErr_cons_cons (a b : AttemptOutcome) (l : List AttemptOutcome) :
    lastErr (a :: b :: l) = lastErr (b :: l) := by
  simp [lastErr, List.getLast?_cons_cons]

/-- When every one of the `MAX_RETRIES` attempts raises, the retry loop
returns the last error and the temp path holds whatever the attempt
sequence left there. -/
theorem runAttempts_all_err (atts : List AttemptOutcome) :
    ∀ t0 : Option (List Nat), (∀ a ∈ atts, isErr a = true) → atts ≠ [] →
      runAttempts atts.length atts t0
        = .failure (lastErr atts) atts.length (foldTmp t0 atts) := by
  induction atts with
  | nil => intro t0 _ hne; cases hne rfl
  | cons a rest ih =>
      intro t0 hall hne
      cases a with
      | ok b h =>
          have hh := hall _ (List.mem_cons_self _ _)
          simp [isErr] at hh
      | err w m =>
          cases rest with
          | nil =>
              show runAttempts (0 + 1) [.err w m] t0 = _
              rw [runAttempts_err_step]
              simp [lastErr, foldTmp]
          | cons b rest2 =>
              have hall2 : ∀ x ∈ b :: rest2, isErr x = true :=
                fun x hx => hall x (List.mem_cons_of_mem _ hx)
              have ih2 := ih (updTmp w t0) hall2 (by simp)
              show runAttempts ((b :: rest2).length + 1) (.err w m :: b :: rest2) t0 = _
              rw [runAttempts_err_step]
              have hne0 : (b :: rest2).length ≠ 0 := by simp
              rw [if_neg hne0, ih2, lastErr_cons_cons]
              rfl

/-- A successful retry loop returns a body that one of the attempts
actually served. -/
theorem runAttempts_success_mem :
    ∀ (n : Nat) (atts : List AttemptOutcome) (t0 : Option (List Nat))
      (b : List Nat) (h k : Nat) (t : Option (List Nat)),
      runAttempts n atts t0 = .success b h k t → AttemptOutcome.ok b h ∈ atts := by
  intro n
  induction n with
  | zero => intro atts t0 b h k t hc; simp [runAttempts] at hc
  | succ m ih =>
      intro atts t0 b h k t hc
      cases atts with
      | nil =>
          have h1 : runAttempts (m + 1) ([] : List AttemptOutcome) t0
              = .failure "no attempts" 0 t0 := rfl
          rw [h1] at hc
          cases hc
      | cons a rest =>
          cases a with
          | ok bb hh =>
              have h1 : runAttempts (m + 1) (.ok bb hh :: rest) t0
                  = .success bb hh 1 none := rfl
              rw [h1] at hc
              cases hc
              exact List.mem_cons_self _ _
          | err w mm =>
              rw [runAttempts_err_step] at hc
              by_cases hm : m = 0
              · rw [if_pos hm] at hc
                cases hc
              · rw [if_neg hm] at hc
                cases hrec : runAttempts m rest (updTmp w t0) with
                | success bb hh kk tt =>
                    rw [hrec] at hc
                    cases hc
                    exact List.mem_cons_of_mem _ (ih rest _ _ _ _ _ hrec)
                | failure m3 kk tt =>
                    rw [hrec] at hc
                    cases hc

/-- Candidate for the C7 run. -/
def C7cand : Cand := mkPending 1 "bl" "u7" none none none

/-- Oracle for the C7 run: no HEAD data, and all three attempts raise;
the first writes one byte to the temp file before failing, the second
fails before opening it, the third writes two bytes and fails. -/
def C7orc : Nat → Fetch := fun _ =>
  ⟨none, none, [.err (some [9]) "boom1", .err none "boom2", .err (some [8, 8]) "boom3"]⟩

/-- The full engine run on that single candidate. -/
def C7run : EngineState :=
  runLoop 100 MAX_RETRIES BATCH_SIZE C7orc 5 (initState [C7cand] [] 0)

/-- C7 counterexample: after the retry budget is exhausted the
candidate is committed `failed` with the last error recorded — but the
`.part` temp file written by the last failing attempt is NOT removed:
it is still on disk when the run ends.  The claim's "removes the
temporary file if one is present" does not hold (neither
`download_file` nor the exception handler of `download_capped.main`
ever unlinks `dest_tmp`). -/
theorem C7_cleanup_claim_cex :
    (C7run.db.map fun c => (c.status, c.error)) = [(Status.failed, some "boom3")]
    ∧ C7run.tmp = [("id1.part", [8, 8])]
    ∧ fsGet C7run.tmp "id1.part" = some [8, 8] := by
  refine ⟨rfl, rfl, rfl⟩

/-- C7 amended: when the destination is absent, the HEAD result does
not trigger the over-cap skip, and every attempt raises, the worker
commits the candidate as `failed` with the last error recorded — but
it does NOT remove the temp file: the `.part` path afterwards holds
exactly what the attempt sequence left there (the bytes of the last
attempt that opened it). -/
theorem C7_failed_keeps_temp (cap mr : Nat) (oracle : Nat → Fetch)
    (st st2 : EngineState) (c cRow : Cand)
    (hrow : getRow st.db c.cid = some cRow)
    (hfs : fsGet st.fs (destName c.sha1 c.cid) = none)
    (hlen : (oracle c.cid).attempts.length = mr)
    (hall : ∀ a ∈ (oracle c.cid).attempts, isErr a = true)
    (hne : (oracle c.cid).attempts ≠ [])
    (hns : noSkipHead cap st.localTotal (oracle c.cid).headLen)
    (hst2 : st2 = candidateStep cap mr oracle st c) :
    getRow st2.db c.cid
      = some
        { cRow with status := Status.failed,
                    error := some (lastErr (oracle c.cid).attempts) }
    ∧ fsGet st2.tmp (destName c.sha1 c.cid ++ ".part")
        = foldTmp (fsGet st.tmp (destName c.sha1 c.cid ++ ".part")) (oracle c.cid).attempts
    ∧ st2.fs = st.fs
    ∧ st2.statBytes = st.statBytes
    ∧ st2.localTotal = st.localTotal
    ∧ st2.outs = st.outs ++ [⟨c.cid, Status.failed, 0, 1 + mr⟩] := by
  subst hst2
  subst hlen
  have hAtt : candidateStep cap (oracle c.cid).attempts.length oracle st c
      = attemptPhase (oracle c.cid).attempts.length (oracle c.cid) st c
          (markDownloading st.db c.cid) (destName c.sha1 c.cid) := by
    simp only [candidateStep, hfs]
    cases hl : (oracle c.cid).headLen with
    | none => rfl
    | some cl =>
        rw [hl] at hns
        have hcond : ¬ (cl ≠ 0 ∧ cap < st.localTotal + cl) := by
          simp only [noSkipHead] at hns
          rcases hns with h0 | hle
          · intro hcc; exact hcc.1 h0
          · intro hcc; omega
        simp [hcond]
  rw [hAtt]
  simp only [attemptPhase]
  rw [runAttempts_all_err (oracle c.cid).attempts
    (fsGet st.tmp (destName c.sha1 c.cid ++ ".part")) hall hne]
  refine ⟨?_, ?_, rfl, rfl, rfl, rfl⟩
  · exact getRow_markFailed_self (getRow_markDownloading_self hrow) _
  · cases foldTmp (fsGet st.tmp (destName c.sha1 c.cid ++ ".part")) (oracle c.cid).attempts with
    | none => exact fsGet_fsRemove_self _ _
    | some p => exact fsGet_fsSet_self _ _ _

theorem C7_failed_keeps_temp_witness :
    getRow (candidateStep 100 3 C7orc (initState [C7cand] [] 0) C7cand).db 1
      = some { C7cand with status := Status.failed, error := some "boom3" }
    ∧ fsGet (candidateStep 100 3 C7orc (initState [C7cand] [] 0) C7cand).tmp "id1.part"
        = some [8, 8]
    ∧ (candidateStep 100 3 C7orc (initState [C7cand] [] 0) C7cand).fs = []
    ∧ (candidateStep 100 3 C7orc (initState [C7cand] [] 0) C7cand).statBytes = 0
    ∧ (candidateStep 100 3 C7orc (initState [C7cand] [] 0) C7cand).localTotal = 0
    ∧ (candidateStep 100 3 C7orc (initState [C7cand] [] 0) C7cand).outs
        = [⟨1, Status.failed, 0, 4⟩] :=
  C7_failed_keeps_temp 100 3 C7orc (initState [C7cand] [] 0)
    (candidateStep 100 3 C7orc (initState [C7cand] [] 0) C7cand) C7cand C7cand
    (by decide) (by decide) rfl (by decide) (by decide) (by decide) rfl

/-! ## Claim C10 -/

/-- C10: when the computed destination file already exists, the worker
commits the candidate as `downloaded` using the existing file's size
and digest, issues no network request (no HEAD, no GET), and leaves
both the in-process byte total and the persisted
`total_downloaded_bytes` stat unchanged. -/
theorem C10_existing_file_commit (cap mr : Nat) (oracle : Nat → Fetch)
    (st st2 : EngineState) (c cRow : Cand) (b : List Nat)
    (hrow : getRow st.db c.cid = some cRow)
    (hfs : fsGet st.fs (destName c.sha1 c.cid) = some b)
    (hst2 : st2 = candidateStep cap mr oracle st c) :
    getRow st2.db c.cid = some
      { cRow with status := .downloaded,
                  localPath := some (destName c.sha1 c.cid),
                  downloadedBytes := some b.length,
                  sha256local := some (compute_sha256 b) }
    ∧ st2.statBytes = st.statBytes
    ∧ st2.localTotal = st.localTotal
    ∧ st2.fs = st.fs
    ∧ st2.tmp = st.tmp
    ∧ st2.outs = st.outs ++ [⟨c.cid, Status.downloaded, 0, 0⟩] := by
  subst hst2
  have hstep : candidateStep cap mr oracle st c =
      { st with
        db := markDownloadedExisting (markDownloading st.db c.cid) c.cid
                (destName c.sha1 c.cid) b.length (compute_sha256 b),
        outs := st.outs ++ [⟨c.cid, Status.downloaded, 0, 0⟩] } := by
    simp only [candidateStep, hfs]
  rw [hstep]
  refine ⟨?_, rfl, rfl, rfl, rfl, rfl⟩
  have h1 := getRow_markDownloading_self hrow
  exact getRow_markDownloadedExisting_self h1 _ _ _

/-- Concrete candidate for the C10 witness. -/
def C10cand : Cand := mkPending 1 "gallica" "u10" none none none

/-- Engine state for the C10 witness: the destination `id1` already
holds a two-byte file. -/
def C10st : EngineState := initState [C10cand] [("id1", [5, 5])] 0

/-- Oracle for the C10 witness (never consulted). -/
def C10orc : Nat → Fetch := fun _ => ⟨none, none, []⟩

theorem C10_existing_file_commit_witness :
    getRow (candidateStep 100 3 C10orc C10st C10cand).db 1
      = some
        { C10cand with status := Status.downloaded, localPath := some "id1",
                       downloadedBytes := some 2, sha256local := some [5, 5] }
    ∧ (candidateStep 100 3 C10orc C10st C10cand).statBytes = C10st.statBytes
    ∧ (candidateStep 100 3 C10orc C10st C10cand).localTotal = C10st.localTotal
    ∧ (candidateStep 100 3 C10orc C10st C10cand).fs = C10st.fs
    ∧ (candidateStep 100 3 C10orc C10st C10cand).tmp = C10st.tmp
    ∧ (candidateStep 100 3 C10orc C10st C10cand).outs
        = C10st.outs ++ [⟨1, Status.downloaded, 0, 0⟩] :=
  C10_existing_file_commit 100 3 C10orc C10st
    (candidateStep 100 3 C10orc C10st C10cand) C10cand C10cand [5, 5]
    (by decide) (by decide) rfl

/-! ## Claim C1 -/

theorem sumNetBytes_append (l1 l2 : List Outcome) :
    sumNetBytes (l1 ++ l2) = sumNetBytes l1 + sumNetBytes l2 := by
  simp [sumNetBytes]

/-- The budget bookkeeping maintained through a run: the persisted stat
equals the initial stat plus the logged net bytes, and the stat agrees
with the in-process `total_bytes` variable unless the forced cap-exit
(`total_bytes = MAX_STORAGE_BYTES`) has fired. -/
def AcctInv (cap total0 : Nat) (st : EngineState) : Prop :=
  (st.statBytes = st.localTotal ∨ cap ≤ st.localTotal)
  ∧ st.statBytes = total0 + sumNetBytes st.outs

theorem attemptPhase_acct {cap total0 mr : Nat} {f : Fetch} {st : EngineState}
    {c : Cand} {db1 : List Cand} {name : String}
    (hsync2 : st.statBytes = st.localTotal)
    (hacct : st.statBytes = total0 + sumNetBytes st.outs) :
    AcctInv cap total0 (attemptPhase mr f st c db1 name) := by
  cases hr : runAttempts mr f.attempts (fsGet st.tmp (name ++ ".part")) with
  | success b http calls t =>
      constructor
      · left
        simp [attemptPhase, hr]
      · simp only [attemptPhase, hr]
        rw [sumNetBytes_append]
        have hs1 : sumNetBytes [(⟨c.cid, Status.downloaded, b.length, 1 + calls⟩ : Outcome)]
            = b.length := by
          simp [sumNetBytes]
        rw [hs1]
        omega
  | failure msg calls t =>
      constructor
      · left
        simp [attemptPhase, hr, hsync2]
      · simp only [attemptPhase, hr]
        simp [sumNetBytes_append, sumNetBytes, hacct]

theorem candidateStep_acct {cap total0 mr : Nat} {oracle : Nat → Fetch}
    {st : EngineState} (c : Cand) (hlt : st.localTotal < cap)
    (hI : AcctInv cap total0 st) :
    AcctInv cap total0 (candidateStep cap mr oracle st c) := by
  rcases hI with ⟨hsync, hacct⟩
  have hsync2 : st.statBytes = st.localTotal := by
    rcases hsync with h | h
    · exact h
    · omega
  cases hx : fsGet st.fs (destName c.sha1 c.cid) with
  | some content =>
      constructor
      · left
        simp [candidateStep, hx, hsync2]
      · simp only [candidateStep, hx]
        simp [sumNetBytes_append, sumNetBytes, hacct]
  | none =>
      cases hl : (oracle c.cid).headLen with
      | some cl =>
          by_cases hcnd : cl ≠ 0 ∧ cap < st.localTotal + cl
          · constructor
            · right
              simp [candidateStep, hx, hl, hcnd]
            · simp only [candidateStep, hx, hl]
              simp [hcnd, sumNetBytes_append, sumNetBytes, hacct]
          · have hstep : candidateStep cap mr oracle st c
                = attemptPhase mr (oracle c.cid) st c (markDownloading st.db c.cid)
                    (destName c.sha1 c.cid) := by
              simp [candidateStep, hx, hl, hcnd]
            rw [hstep]
            exact attemptPhase_acct hsync2 hacct
      | none =>
          have hstep : candidateStep cap mr oracle st c
              = attemptPhase mr (oracle c.cid) st c (markDownloading st.db c.cid)
                  (destName c.sha1 c.cid) := by
            simp [candidateStep, hx, hl]
          rw [hstep]
          exact attemptPhase_acct hsync2 hacct

theorem processBatch_acct {cap total0 mr : Nat} {oracle : Nat → Fetch} :
    ∀ (l : List Cand) (st : EngineState), AcctInv cap total0 st →
      AcctInv cap total0 (processBatch cap mr oracle st l) := by
  intro l
  induction l with
  | nil => intro st h; exact h
  | cons c rest ih =>
      intro st h
      simp only [processBatch]
      by_cases hx : cap ≤ st.localTotal
      · rw [if_pos hx]; exact h
      · rw [if_neg hx]
        exact ih _ (candidateStep_acct c (by omega) h)

theorem runLoop_acct {cap total0 mr bs : Nat} {oracle : Nat → Fetch} :
    ∀ (fuel : Nat) (st : EngineState), AcctInv cap total0 st →
      AcctInv cap total0 (runLoop cap mr bs oracle fuel st) := by
  intro fuel
  induction fuel with
  | zero => intro st h; exact h
  | succ n ih =>
      intro st h
      simp only [runLoop]
      split
      · split
        · exact h
        · exact ih _ (processBatch_acct _ _ h)
      · exact h

/-- The cap bound maintained through a run whose HEAD replies are
honest: both byte totals stay at or below the cap. -/
def CapInv (cap : Nat) (st : EngineState) : Prop :=
  st.localTotal ≤ cap ∧ st.statBytes ≤ cap

theorem attemptPhase_cap {cap mr : Nat} {f : Fetch} {st : EngineState} {c : Cand}
    {db1 : List Cand} {name : String}
    (h1 : st.localTotal ≤ cap) (h2 : st.statBytes ≤ cap)
    (hbound : ∀ b http k t,
      runAttempts mr f.attempts (fsGet st.tmp (name ++ ".part")) = .success b http k t →
        st.localTotal + b.length ≤ cap) :
    CapInv cap (attemptPhase mr f st c db1 name) := by
  cases hr : runAttempts mr f.attempts (fsGet st.tmp (name ++ ".part")) with
  | success b http calls t =>
      have hb := hbound b http calls t hr
      constructor
      · simp [attemptPhase, hr]
        omega
      · simp [attemptPhase, hr]
        omega
  | failure msg calls t =>
      constructor
      · simp [attemptPhase, hr, h1]
      · simp [attemptPhase, hr, h2]

theorem candidateStep_cap {cap mr : Nat} {oracle : Nat → Fetch} {st : EngineState}
    (c : Cand) (hacc : accurateOracle oracle) (hlt : st.localTotal < cap)
    (hC : CapInv cap st) : CapInv cap (candidateStep cap mr oracle st c) := by
  rcases hC with ⟨h1, h2⟩
  cases hx : fsGet st.fs (destName c.sha1 c.cid) with
  | some content =>
      constructor
      · simp [candidateStep, hx, h1]
      · simp [candidateStep, hx, h2]
  | none =>
      cases hl : (oracle c.cid).headLen with
      | some cl =>
          by_cases hcnd : cl ≠ 0 ∧ cap < st.localTotal + cl
          · constructor
            · simp [candidateStep, hx, hl, hcnd]
            · simp [candidateStep, hx, hl, hcnd, h2]
          · have hstep : candidateStep cap mr oracle st c
                = attemptPhase mr (oracle c.cid) st c (markDownloading st.db c.cid)
                    (destName c.sha1 c.cid) := by
              simp [candidateStep, hx, hl, hcnd]
            rw [hstep]
            refine attemptPhase_cap h1 h2 ?_
            intro b http k t hr
            have hmem := runAttempts_success_mem _ _ _ _ _ _ _ hr
            have hok := hacc c.cid _ hmem
            rw [hl] at hok
            have hble : b.length ≤ cl := hok
            omega
      | none =>
          have hstep : candidateStep cap mr oracle st c
              = attemptPhase mr (oracle c.cid) st c (markDownloading st.db c.cid)
                  (destName c.sha1 c.cid) := by
            simp [candidateStep, hx, hl]
          rw [hstep]
          refine attemptPhase_cap h1 h2 ?_
          intro b http k t hr
          have hmem := runAttempts_success_mem _ _ _ _ _ _ _ hr
          have hok := hacc c.cid _ hmem
          rw [hl] at hok
          exact absurd hok (by simp [okWithin])

theorem processBatch_cap {cap mr : Nat} {oracle : Nat → Fetch}
    (hacc : accurateOracle oracle) :
    ∀ (l : List Cand) (st : EngineState), CapInv cap st →
      CapInv cap (processBatch cap mr oracle st l) := by
  intro l
  induction l with
  | nil => intro st h; exact h
  | cons c rest ih =>
      intro st h
      simp only [processBatch]
      by_cases hx : cap ≤ st.localTotal
      · rw [if_pos hx]; exact h
      · rw [if_neg hx]
        exact ih _ (candidateStep_cap c hacc (by omega) h)

theorem runLoop_cap {cap mr bs : Nat} {oracle : Nat → Fetch}
    (hacc : accurateOracle oracle) :
    ∀ (fuel : Nat) (st : EngineState), CapInv cap st →
      CapInv cap (runLoop cap mr bs oracle fuel st) := by
  intro fuel
  induction fuel with
  | zero => intro st h; exact h
  | succ n ih =>
      intro st h
      simp only [runLoop]
      split
      · split
        · exact h
        · exact ih _ (processBatch_cap hacc _ _ h)
      · exact h

/-- First candidate of the C1 counterexample run: its destination file
already exists on disk (20 bytes), so it is committed Downloaded with
`downloaded_bytes = 20` without touching the stat. -/
def C1c1 : Cand := mkPending 1 "s1" "u1" none none none

/-- Second candidate: its HEAD reply carries no Content-Length, so the
over-cap guard cannot fire and a 15-byte body is downloaded over a
10-byte cap. -/
def C1c2 : Cand := mkPending 2 "s2" "u2" none none none

/-- The pre-existing 20-byte file at destination `id1` (the
`name_base` of candidate 1, which carries no sha1 hint). -/
def C1fs : FS := [("id1", List.replicate 20 7)]

/-- Oracle of the counterexample run: no Content-Length, one successful
15-byte attempt. -/
def C1orc : Nat → Fetch := fun _ => ⟨none, none, [.ok (List.replicate 15 3) 200]⟩

/-- The counterexample run: cap 10 bytes, starting stat 0. -/
def C1run : EngineState :=
  runLoop 10 MAX_RETRIES BATCH_SIZE C1orc 5 (initState [C1c1, C1c2] C1fs 0)

/-- C1 counterexample: at this run the final persisted
`total_downloaded_bytes` is 15 > cap 10 (the unknown-length download
overskirts the HEAD guard), and it differs from the sum of
`downloaded_bytes` over Downloaded rows (which is 35: the pre-existing
file contributes 20 to the rows but nothing to the stat).  Both
conjuncts of the claim fail. -/
theorem C1_budget_claim_cex :
    10 < C1run.statBytes ∧ C1run.statBytes ≠ sumDownloadedBytes C1run.db := by
  refine ⟨by decide, by decide⟩

/-- C1 amended: for every run, the final persisted
`total_downloaded_bytes` equals the starting value plus the sum of the
bytes of the network-downloaded files (already-present destination
files and skipped/failed candidates contribute zero); and the cap bound
`usedBytes ≤ capBytes` holds provided the run starts at or below the
cap and every successful body fits in its HEAD-announced
Content-Length (it can be violated when the Content-Length is absent
or dishonest, as the counterexample shows). -/
theorem C1_budget_accounting (cap mr bs fuel total0 : Nat) (db : List Cand)
    (fs : FS) (oracle : Nat → Fetch) (r : EngineState)
    (hr : r = runLoop cap mr bs oracle fuel (initState db fs total0)) :
    r.statBytes = total0 + sumNetBytes r.outs
    ∧ (accurateOracle oracle → total0 ≤ cap → r.statBytes ≤ cap) := by
  subst hr
  constructor
  · exact (runLoop_acct fuel _ ⟨Or.inl rfl, by simp [initState, sumNetBytes]⟩).2
  · intro hacc h0
    exact (runLoop_cap hacc fuel _ ⟨h0, h0⟩).2

/-- Candidates of the C1 witness run (spec scenario A scaled down):
two 6-byte files under a 10-byte cap. -/
def C1wc1 : Cand := mkPending 1 "sa" "ua" none none none

/-- Second witness candidate. -/
def C1wc2 : Cand := mkPending 2 "sb" "ub" none none none

/-- Witness oracle: honest Content-Length 6, one successful 6-byte
attempt. -/
def C1worc : Nat → Fetch := fun _ => ⟨some 200, some 6, [.ok (List.replicate 6 1) 200]⟩

/-- The witness run. -/
def C1wrun : EngineState :=
  runLoop 10 MAX_RETRIES BATCH_SIZE C1worc 5 (initState [C1wc1, C1wc2] [] 0)

theorem C1_budget_accounting_witness :
    C1wrun.statBytes = 0 + sumNetBytes C1wrun.outs ∧ C1wrun.statBytes ≤ 10 := by
  have h := C1_budget_accounting 10 MAX_RETRIES BATCH_SIZE 5 0 [C1wc1, C1wc2] []
    C1worc C1wrun rfl
  have hone : ∀ a ∈ (Fetch.mk (some 200) (some 6)
      [.ok (List.replicate 6 1) 200]).attempts, okWithin (some 6) a := by
    decide
  have hacc : accurateOracle C1worc := fun _ => hone
  exact ⟨h.1, h.2 hacc (by decide)⟩

/-! ## Claim C3 -/

/-- First candidate of the C3 run. -/
def C3c1 : Cand := mkPending 1 "s1" "u1" none none none

/-- Second candidate of the C3 run: a different (source, sourceURL)
identity that serves byte-identical content. -/
def C3c2 : Cand := mkPending 2 "s2" "u2" none none none

/-- Oracle of the C3 run: both URLs serve the same three bytes, with an
honest Content-Length. -/
def C3orc : Nat → Fetch := fun _ => ⟨some 200, some 3, [.ok [1, 2, 3] 200]⟩

/-- The C3 run: plenty of budget, both candidates processed. -/
def C3run : EngineState :=
  runLoop 100 MAX_RETRIES BATCH_SIZE C3orc 5 (initState [C3c1, C3c2] [] 0)

/-- C3 counterexample: one run of the capped downloader on two
byte-identical candidates ends with BOTH terminal statuses
`downloaded` (equal stored digests prove the contents identical) and
no `duplicate`/`perceptual_duplicate` row anywhere — the worker
consults no dedup index at download time, so the claimed
one-Downloaded-one-Duplicate outcome does not happen in the run. -/
theorem C3_dedup_claim_cex :
    (C3run.db.map fun c => (c.cid, c.sha256local, c.status))
      = [(1, some [1, 2, 3], Status.downloaded), (2, some [1, 2, 3], Status.downloaded)]
    ∧ ¬ (∃ c ∈ C3run.db,
          c.status = Status.duplicate ∨ c.status = Status.perceptualDuplicate) := by
  refine ⟨rfl, by decide⟩

/-- A Downloaded row as the engine commits it: id `i`, file at path
`p` holding bytes `b`, stored digest of `b`. -/
def dlRow (i : Nat) (p : String) (b : List Nat) : Cand :=
  { mkPending i "" "" none none none with
      status := Status.downloaded, localPath := some p,
      downloadedBytes := some b.length, sha256local := some (compute_sha256 b) }

/-- C3 amended: the capped download worker consults no dedup index at
all (exact or perceptual) — a run leaves both byte-identical candidates
`downloaded` — and exact deduplication is a separate offline pass:
`dedupe_exact` over any two Downloaded rows with the same bytes at
distinct paths keeps the lower-id row `downloaded`, marks the higher-id
row `duplicate` with `downloaded_bytes = 0`, deletes its file and
counts its bytes as freed; run after the C3 run it yields exactly one
`downloaded` and one `duplicate`. -/
theorem C3_dedup_offline (b : List Nat) (i1 i2 : Nat) (p1 p2 : String)
    (hlt : i1 < i2) (hne : p1 ≠ p2) :
    dedupe_exact [dlRow i1 p1 b, dlRow i2 p2 b] [(p1, b), (p2, b)]
      = ⟨[dlRow i1 p1 b,
          { dlRow i2 p2 b with status := Status.duplicate, downloadedBytes := some 0 }],
         [(p1, b)], [b], b.length⟩
    ∧ (C3run.db.map fun c => (c.cid, c.status))
        = [(1, Status.downloaded), (2, Status.downloaded)]
    ∧ ((dedupe_exact C3run.db C3run.fs).ddb.map fun c => (c.cid, c.status, c.downloadedBytes))
        = [(1, Status.downloaded, some 3), (2, Status.duplicate, some 0)]
    ∧ fsGet (dedupe_exact C3run.db C3run.fs).dfs "id2" = none
    ∧ fsGet (dedupe_exact C3run.db C3run.fs).dfs "id1" = some [1, 2, 3] := by
  refine ⟨?_, rfl, rfl, rfl, rfl⟩
  have hi : (i1 == i2) = false := beq_eq_false_iff_ne.mpr (Nat.ne_of_lt hlt)
  have hp : (p1 == p2) = false := beq_eq_false_iff_ne.mpr hne
  simp [dedupe_exact, dedupeRows, sortById, insertById, dedupeExactStep, dlRow,
        mkPending, fsGet, fsRemove, markDuplicate, updRow, compute_sha256,
        List.filter_cons, List.find?_cons, hlt, hi, hp, hne]

theorem C3_dedup_offline_witness :
    dedupe_exact [dlRow 1 "pa" [9], dlRow 2 "pb" [9]] [("pa", [9]), ("pb", [9])]
      = ⟨[dlRow 1 "pa" [9],
          { dlRow 2 "pb" [9] with status := Status.duplicate, downloadedBytes := some 0 }],
         [("pa", [9])], [[9]], 1⟩ :=
  (C3_dedup_offline [9] 1 2 "pa" "pb" (by decide) (by decide)).1

/-! ## Claim C8 -/

theorem mem_updRow {db : List Cand} {i : Nat} {g : Cand → Cand} {d : Cand}
    (hd : d ∈ updRow db i g) :
    ∃ r ∈ db, ((r.cid = i ∧ d = g r) ∨ (r.cid ≠ i ∧ d = r)) := by
  induction db with
  | nil => simp [updRow] at hd
  | cons a ds ih =>
      simp only [updRow] at hd
      rcases List.mem_cons.mp hd with h1 | h2
      · by_cases ha : (a.cid == i) = true
        · rw [if_pos ha] at h1
          exact ⟨a, List.mem_cons_self _ _, Or.inl ⟨eq_of_beq ha, h1⟩⟩
        · have hf : (a.cid == i) = false := Bool.not_eq_true _ ▸ ha
          rw [hf] at h1
          simp only [Bool.false_eq_true, if_false] at h1
          refine ⟨a, List.mem_cons_self _ _, Or.inr ⟨?_, h1⟩⟩
          intro hh
          rw [hh] at hf
          simp at hf
      · rcases ih h2 with ⟨r, hr, hc⟩
        exact ⟨r, List.mem_cons_of_mem _ hr, hc⟩

theorem updRow_updRow_same {db : List Cand} {i : Nat} {f1 f2 : Cand → Cand}
    (hf1 : ∀ c, (f1 c).cid = c.cid) :
    updRow (updRow db i f1) i f2 = updRow db i (fun c => f2 (f1 c)) := by
  induction db with
  | nil => rfl
  | cons d ds ih =>
      by_cases hd : (d.cid == i) = true
      · have h2 : ((f1 d).cid == i) = true := by rw [hf1 d]; exact hd
        simp [updRow, hd, h2, ih]
      · have hf : (d.cid == i) = false := Bool.not_eq_true _ ▸ hd
        simp [updRow, hf, ih]

theorem updRow_forall {P : Cand → Prop} {db : List Cand} {i : Nat} {f : Cand → Cand}
    (hdb : ∀ d ∈ db, P d) (hf : ∀ d, P d → P (f d)) :
    ∀ d ∈ updRow db i f, P d := by
  intro d hd
  rcases mem_updRow hd with ⟨r, hr, hcase⟩
  rcases hcase with ⟨_, hgr⟩ | ⟨_, hrr⟩
  · rw [hgr]; exact hf r (hdb r hr)
  · rw [hrr]; exact hdb r hr

/-- Every candidate-loop iteration rewrites exactly the rows with the
claimed id through one terminal-commit function `g`: `g` keeps the id,
always leaves a non-`pending` (hence ineligible) status, and — on a row
that had no `local_path` — establishes `local_path` non-null exactly
when it commits `downloaded`. -/
theorem candidateStep_db_shape (cap mr : Nat) (oracle : Nat → Fetch)
    (st : EngineState) (c : Cand) :
    ∃ g : Cand → Cand,
      (candidateStep cap mr oracle st c).db = updRow st.db c.cid g
      ∧ (∀ y, (g y).cid = y.cid)
      ∧ (∀ y, eligible (g y) = false)
      ∧ (∀ y, y.localPath = none →
          ((g y).localPath ≠ none ↔ (g y).status = Status.downloaded)) := by
  cases hx : fsGet st.fs (destName c.sha1 c.cid) with
  | some content =>
      refine ⟨fun y =>
        { y with status := Status.downloaded,
                 localPath := some (destName c.sha1 c.cid),
                 downloadedBytes := some content.length,
                 sha256local := some (compute_sha256 content) }, ?_, ?_, ?_, ?_⟩
      · simp only [candidateStep, hx, markDownloadedExisting, markDownloading]
        exact updRow_updRow_same (fun _ => rfl)
      · intro y; rfl
      · intro y; simp [eligible]
      · intro y _; simp
  | none =>
      cases hl : (oracle c.cid).headLen with
      | some cl =>
          by_cases hcnd : cl ≠ 0 ∧ cap < st.localTotal + cl
          · refine ⟨fun y =>
              { y with status := Status.skipped,
                       httpStatus := (oracle c.cid).headStatus,
                       contentLength := some cl,
                       error := some "would exceed storage cap" }, ?_, ?_, ?_, ?_⟩
            · simp only [candidateStep, hx, hl]
              rw [if_pos hcnd]
              simp only [markSkippedCap, markDownloading]
              exact updRow_updRow_same (fun _ => rfl)
            · intro y; rfl
            · intro y; simp [eligible]
            · intro y hy; simp [hy]
          · have hstep : candidateStep cap mr oracle st c
                = attemptPhase mr (oracle c.cid) st c (markDownloading st.db c.cid)
                    (destName c.sha1 c.cid) := by
              simp [candidateStep, hx, hl, hcnd]
            rw [hstep]
            cases hr : runAttempts mr (oracle c.cid).attempts
                (fsGet st.tmp (destName c.sha1 c.cid ++ ".part")) with
            | success b http calls t =>
                refine ⟨fun y =>
                  { y with status := Status.downloaded, httpStatus := some http,
                           contentLength := (oracle c.cid).headLen,
                           downloadedBytes := some b.length,
                           localPath := some (destName c.sha1 c.cid),
                           sha256local := some (compute_sha256 b) }, ?_, ?_, ?_, ?_⟩
                · simp only [attemptPhase, hr, markDownloadedNet, markDownloading]
                  exact updRow_updRow_same (fun _ => rfl)
                · intro y; rfl
                · intro y; simp [eligible]
                · intro y _; simp
            | failure msg calls t =>
                refine ⟨fun y =>
                  { y with status := Status.failed, error := some msg }, ?_, ?_, ?_, ?_⟩
                · simp only [attemptPhase, hr, markFailed, markDownloading]
                  exact updRow_updRow_same (fun _ => rfl)
                · intro y; rfl
                · intro y; simp [eligible]
                · intro y hy; simp [hy]
      | none =>
          have hstep : candidateStep cap mr oracle st c
              = attemptPhase mr (oracle c.cid) st c (markDownloading st.db c.cid)
                  (destName c.sha1 c.cid) := by
            simp [candidateStep, hx, hl]
          rw [hstep]
          cases hr : runAttempts mr (oracle c.cid).attempts
              (fsGet st.tmp (destName c.sha1 c.cid ++ ".part")) with
          | success b http calls t =>
              refine ⟨fun y =>
                { y with status := Status.downloaded, httpStatus := some http,
                         contentLength := (oracle c.cid).headLen,
                         downloadedBytes := some b.length,
                         localPath := some (destName c.sha1 c.cid),
                         sha256local := some (compute_sha256 b) }, ?_, ?_, ?_, ?_⟩
              · simp only [attemptPhase, hr, markDownloadedNet, markDownloading]
                exact updRow_updRow_same (fun _ => rfl)
              · intro y; rfl
              · intro y; simp [eligible]
              · intro y _; simp
          | failure msg calls t =>
              refine ⟨fun y =>
                { y with status := Status.failed, error := some msg }, ?_, ?_, ?_, ?_⟩
              · simp only [attemptPhase, hr, markFailed, markDownloading]
                exact updRow_updRow_same (fun _ => rfl)
              · intro y; rfl
              · intro y; simp [eligible]
              · intro y hy; simp [hy]

/-- The one direction of the C8 invariant the dedup passes do keep:
rows still marked `downloaded` keep a non-null `local_path`. -/
def PathKeep (d : Cand) : Prop :=
  d.status = Status.downloaded → d.localPath ≠ none

theorem pathInv_pathKeep {db : List Cand} (h : pathInv db) : ∀ d ∈ db, PathKeep d :=
  fun d hd => (h d hd).mpr

theorem dedupeExactStep_keep (st : DedupState) (row : Cand)
    (hdb : ∀ d ∈ st.ddb, PathKeep d) :
    ∀ d ∈ (dedupeExactStep st row).ddb, PathKeep d := by
  cases hl : row.localPath with
  | none => simpa [dedupeExactStep, hl] using hdb
  | some p =>
      cases hg : fsGet st.dfs p with
      | none => simpa [dedupeExactStep, hl, hg] using hdb
      | some content =>
          simp only [dedupeExactStep, hl, hg]
          split
          · simp only [markDuplicate]
            refine updRow_forall hdb ?_
            intro d _
            intro hcon
            simp at hcon
          · simpa using hdb

theorem dedupePercStep_keep (imgHash : String → Option Nat) (threshold : Nat)
    (st : PDedupState) (row : Cand)
    (hdb : ∀ d ∈ st.pdb, PathKeep d) :
    ∀ d ∈ (dedupePercStep imgHash threshold st row).pdb, PathKeep d := by
  have hphash : ∀ (db : List Cand) (i q : Nat), (∀ d ∈ db, PathKeep d) →
      ∀ d ∈ setPhash db i q, PathKeep d := by
    intro db i q hdb2
    simp only [setPhash]
    refine updRow_forall hdb2 ?_
    intro d hd
    intro hst
    exact hd hst
  have hdup : ∀ (db : List Cand) (i : Nat), (∀ d ∈ db, PathKeep d) →
      ∀ d ∈ markPerceptualDup db i, PathKeep d := by
    intro db i hdb2
    simp only [markPerceptualDup]
    refine updRow_forall hdb2 ?_
    intro d _
    intro hcon
    simp at hcon
  cases hl : row.localPath with
  | none => simpa [dedupePercStep, hl] using hdb
  | some p =>
      cases hg : fsGet st.pfs p with
      | none => simpa [dedupePercStep, hl, hg] using hdb
      | some content =>
          simp only [dedupePercStep, hl, hg]
          cases hph : row.phash with
          | some q =>
              cases hfind : st.pseen.find?
                  (fun e => decide (hamming_distance q e.1 ≤ threshold)) with
              | some e => simpa [hfind] using hdup st.pdb row.cid hdb
              | none => simpa [hfind] using hdb
          | none =>
              cases him : imgHash p with
              | none => simpa using hdb
              | some q =>
                  cases hfind : st.pseen.find?
                      (fun e => decide (hamming_distance q e.1 ≤ threshold)) with
                  | some e =>
                      simpa [hfind] using hdup _ row.cid (hphash st.pdb row.cid q hdb)
                  | none => simpa [hfind] using hphash st.pdb row.cid q hdb

theorem foldl_keep_exact (rows : List Cand) :
    ∀ st : DedupState, (∀ d ∈ st.ddb, PathKeep d) →
      ∀ d ∈ (rows.foldl dedupeExactStep st).ddb, PathKeep d := by
  induction rows with
  | nil => intro st h; exact h
  | cons r rest ih => intro st h; exact ih _ (dedupeExactStep_keep st r h)

theorem foldl_keep_perc (imgHash : String → Option Nat) (threshold : Nat)
    (rows : List Cand) :
    ∀ st : PDedupState, (∀ d ∈ st.pdb, PathKeep d) →
      ∀ d ∈ (rows.foldl (dedupePercStep imgHash threshold) st).pdb, PathKeep d := by
  induction rows with
  | nil => intro st h; exact h
  | cons r rest ih =>
      intro st h
      exact ih _ (dedupePercStep_keep imgHash threshold st r h)

/-- The filesystem of the C8 counterexample: the two byte-identical
Downloaded files of `C8db`. -/
def C8fs : FS := [("q1", [4]), ("q2", [4])]

/-- The C8 counterexample store: two Downloaded rows with identical
bytes at distinct paths. -/
def C8db : List Cand := [dlRow 1 "q1" [4], dlRow 2 "q2" [4]]

/-- C8 counterexample: the store satisfies the `localPath` invariant,
yet after the exact-dedup pass it does not — `dedupe_exact` marks
candidate 2 `duplicate` and zeroes its bytes but leaves its
`local_path` set, so a non-`downloaded` row keeps a non-null path. -/
theorem C8_localpath_claim_cex :
    pathInv C8db
    ∧ ¬ pathInv (dedupe_exact C8db C8fs).ddb
    ∧ ((dedupe_exact C8db C8fs).ddb.map fun c => (c.status, c.localPath))
        = [(Status.downloaded, some "q1"), (Status.duplicate, some "q2")] := by
  refine ⟨by decide, by decide, rfl⟩

/-- C8 amended: the download-worker commits (downloaded / skipped /
failed, applied to a claimed Pending row), and the operator retry
reset, preserve the invariant "`localPath` non-null iff status is
`downloaded`"; the two dedup passes preserve only its forward half —
rows still `downloaded` keep their path — while the rows they mark
`duplicate`/`perceptual_duplicate` keep a non-null `localPath`,
breaking the iff (see the counterexample). -/
theorem C8_localpath_preservation (cap mr : Nat) (oracle : Nat → Fetch)
    (st : EngineState) (c : Cand) (db2 : List Cand) (fs2 : FS)
    (imgHash : String → Option Nat) (threshold : Nat)
    (hInv : pathInv st.db)
    (hpend : ∀ r ∈ st.db, r.cid = c.cid → r.status = Status.pending) :
    pathInv (candidateStep cap mr oracle st c).db
    ∧ (pathInv db2 → pathInv (resetFailed db2))
    ∧ (pathInv db2 → ∀ d ∈ (dedupe_exact db2 fs2).ddb,
        d.status = Status.downloaded → d.localPath ≠ none)
    ∧ (pathInv db2 → ∀ d ∈ (dedupe_perceptual imgHash threshold db2 fs2).pdb,
        d.status = Status.downloaded → d.localPath ≠ none) := by
  refine ⟨?_, ?_, ?_, ?_⟩
  · rcases candidateStep_db_shape cap mr oracle st c with ⟨g, hdb, hcid, helig, hiff⟩
    rw [hdb]
    intro d hd
    rcases mem_updRow hd with ⟨r, hr, hcase⟩
    rcases hcase with ⟨hrc, hgr⟩ | ⟨_, hrr⟩
    · have hpnd := hpend r hr hrc
      have hpath : r.localPath = none := by
        by_contra hne
        have := (hInv r hr).mp hne
        rw [hpnd] at this
        cases this
      rw [hgr]
      exact hiff r hpath
    · rw [hrr]
      exact hInv r hr
  · intro hInv2
    intro d hd
    rcases List.mem_map.mp hd with ⟨r, hr, hdr⟩
    by_cases hf : (r.status == Status.failed) = true
    · rw [if_pos hf] at hdr
      have hrf : r.status = Status.failed := eq_of_beq hf
      have hpath : r.localPath = none := by
        by_contra hne
        have := (hInv2 r hr).mp hne
        rw [hrf] at this
        cases this
      rw [← hdr]
      constructor
      · intro hne
        simp [hpath] at hne
      · intro hcon
        simp at hcon
    · have hff : (r.status == Status.failed) = false := Bool.not_eq_true _ ▸ hf
      rw [hff] at hdr
      simp only [Bool.false_eq_true, if_false] at hdr
      rw [← hdr]
      exact hInv2 r hr
  · intro hInv2 d hd
    exact foldl_keep_exact (dedupeRows db2) ⟨db2, fs2, [], 0⟩
      (pathInv_pathKeep hInv2) d hd
  · intro hInv2 d hd
    exact foldl_keep_perc imgHash threshold (dedupeRows db2) ⟨db2, fs2, [], 0⟩
      (pathInv_pathKeep hInv2) d hd

/-- Claimed pending candidate for the C8 witness. -/
def C8wc : Cand := mkPending 3 "sm" "u8" none none none

theorem C8_localpath_preservation_witness :
    pathInv (candidateStep 50 3 C7orc (initState [C8wc] [] 0) C8wc).db
    ∧ (pathInv C8db → pathInv (resetFailed C8db))
    ∧ (pathInv C8db → ∀ d ∈ (dedupe_exact C8db C8fs).ddb,
        d.status = Status.downloaded → d.localPath ≠ none)
    ∧ (pathInv C8db → ∀ d ∈ (dedupe_perceptual (fun _ => none) 5 C8db C8fs).pdb,
        d.status = Status.downloaded → d.localPath ≠ none) :=
  C8_localpath_preservation 50 3 C7orc (initState [C8wc] [] 0) C8wc C8db C8fs
    (fun _ => none) 5 (by decide) (by decide)

/-! ## Claim C9 -/

theorem mem_setMStatus {ms : List ManifestRow} {i : Nat} {s : MStatus} {d : ManifestRow}
    (hd : d ∈ setMStatus ms i s) :
    ∃ r ∈ ms, ((r.mid = i ∧ d = { r with mstatus := s }) ∨ (r.mid ≠ i ∧ d = r)) := by
  induction ms with
  | nil => simp [setMStatus] at hd
  | cons a ds ih =>
      simp only [setMStatus, List.map_cons] at hd
      rcases List.mem_cons.mp hd with h1 | h2
      · by_cases ha : (a.mid == i) = true
        · rw [if_pos ha] at h1
          exact ⟨a, List.mem_cons_self _ _, Or.inl ⟨eq_of_beq ha, h1⟩⟩
        · have hf : (a.mid == i) = false := Bool.not_eq_true _ ▸ ha
          rw [hf] at h1
          simp only [Bool.false_eq_true, if_false] at h1
          refine ⟨a, List.mem_cons_self _ _, Or.inr ⟨?_, h1⟩⟩
          intro hh
          rw [hh] at hf
          simp at hf
      · rcases ih h2 with ⟨r, hr, hc⟩
        exact ⟨r, List.mem_cons_of_mem _ hr, hc⟩

/-- Every row of the manifests table after one manifest is processed is
either an untouched row with a different id, or carries the terminal
`done`/`failed` status. -/
theorem processManifest_row (oracle : Nat → Except String (List String))
    (st : HState) (p : ManifestRow) :
    ∀ m ∈ (processManifest oracle st p).manifests,
      (m.mid ≠ p.mid ∧ m ∈ st.manifests)
      ∨ m.mstatus = MStatus.mdone ∨ m.mstatus = MStatus.mfailed := by
  intro m hm
  have hgen : ∀ s : MStatus,
      m ∈ setMStatus (setMStatus st.manifests p.mid MStatus.mdownloading) p.mid s →
      (m.mid ≠ p.mid ∧ m ∈ st.manifests) ∨ m.mstatus = s := by
    intro s hms
    rcases mem_setMStatus hms with ⟨r, hr, hc⟩
    rcases hc with ⟨_, hdm⟩ | ⟨hne, hdm⟩
    · right
      rw [hdm]
    · rcases mem_setMStatus hr with ⟨r2, hr2, hc2⟩
      rcases hc2 with ⟨hmid2, hdm2⟩ | ⟨_, hdm2⟩
      · exfalso
        rw [hdm2] at hne
        exact hne hmid2
      · left
        rw [hdm2] at hdm
        rw [hdm]
        rw [hdm2] at hne
        exact ⟨hne, hr2⟩
  simp only [processManifest] at hm
  cases ho : oracle p.mid with
  | error e =>
      rw [ho] at hm
      rcases hgen MStatus.mfailed hm with h1 | h2
      · exact Or.inl h1
      · exact Or.inr (Or.inr h2)
  | ok raw =>
      rw [ho] at hm
      rcases hgen MStatus.mdone hm with h1 | h2
      · exact Or.inl h1
      · exact Or.inr (Or.inl h2)

/-- After folding the processing step over any list that covers the ids
of all pending manifests, no pending manifest remains. -/
theorem harvest_fold_no_pending (oracle : Nat → Except String (List String)) :
    ∀ (P : List ManifestRow) (st : HState),
      (∀ m ∈ st.manifests, m.mstatus = MStatus.mpending → m.mid ∈ P.map fun z => z.mid) →
      ∀ m ∈ (P.foldl (processManifest oracle) st).manifests,
        m.mstatus ≠ MStatus.mpending := by
  intro P
  induction P with
  | nil =>
      intro st h m hm hpend
      have := h m hm hpend
      simp at this
  | cons p P' ih =>
      intro st h
      apply ih
      intro m hm hpend
      rcases processManifest_row oracle st p m hm with ⟨hne, hmem⟩ | hs | hs
      · have h2 := h m hmem hpend
        simp only [List.map_cons, List.mem_cons] at h2
        rcases h2 with h3 | h4
        · exact absurd h3 hne
        · exact h4
      · rw [hs] at hpend
        cases hpend
      · rw [hs] at hpend
        cases hpend

theorem harvest_no_pending (oracle : Nat → Except String (List String)) (st : HState) :
    ∀ m ∈ (harvest oracle st).manifests, m.mstatus ≠ MStatus.mpending := by
  apply harvest_fold_no_pending
  intro m hm hpend
  refine List.mem_map.mpr ⟨m, List.mem_filter.mpr ⟨hm, ?_⟩, rfl⟩
  simp [pendingManifests, hpend]

/-- A second harvest pass finds nothing pending and changes nothing. -/
theorem harvest_idem (oracle : Nat → Except String (List String)) (st : HState) :
    harvest oracle (harvest oracle st) = harvest oracle st := by
  have h := harvest_no_pending oracle st
  have hp : pendingManifests (harvest oracle st).manifests = [] := by
    rw [pendingManifests, List.filter_eq_nil_iff]
    intro a ha
    simp [h a ha]
  rw [harvest, hp]
  rfl

/-- INSERT OR IGNORE is idempotent on (source, image_url): repeating an
insert with the same key leaves the candidate table unchanged. -/
theorem insertCandidate_idem (db : List Cand) (n : Nat) (src url : String) :
    insertCandidate (insertCandidate db n src url).1 (insertCandidate db n src url).2 src url
      = insertCandidate db n src url := by
  by_cases h : (db.any fun c => c.source == src && c.url == url) = true
  · simp [insertCandidate, h]
  · have hf : (db.any fun c => c.source == src && c.url == url) = false :=
      Bool.not_eq_true _ ▸ h
    have h2 : ((db ++ [mkPending n src url none none none]).any
        fun c => c.source == src && c.url == url) = true := by
      rw [List.any_append]
      simp [mkPending]
    simp [insertCandidate, hf, h2]

/-- First copy of the doubly-inserted manifest record. -/
def C9m1 : ManifestRow := ⟨1, "gallica", "mu", .mpending⟩

/-- Second copy: same source and manifest URL, a different row id. -/
def C9m2 : ManifestRow := ⟨2, "gallica", "mu", .mpending⟩

/-- Oracle: the manifest document walk finds the service ids
`a/`, `b`, `c` and a repeated `a` (four raw hits, three unique). -/
def C9orc : Nat → Except String (List String) := fun _ => .ok ["a/", "b", "c", "a"]

/-- Initial state: the two manifest rows, an empty candidate table. -/
def C9h0 : HState := ⟨[C9m1, C9m2], [], 1⟩

/-- C9: INSERT OR IGNORE on (source, image_url) is idempotent;
re-running the harvester is a no-op (each pass leaves no manifest
pending, so `Done` blocks re-processing); and the concrete scenario —
a manifest with three discoverable image services inserted twice —
yields exactly three pending candidates, not six, with both manifest
rows marked done. -/
theorem C9_manifest_idempotent :
    (∀ (db : List Cand) (n : Nat) (src url : String),
       insertCandidate (insertCandidate db n src url).1 (insertCandidate db n src url).2 src url
         = insertCandidate db n src url)
    ∧ (∀ (oracle : Nat → Except String (List String)) (st : HState),
         harvest oracle (harvest oracle st) = harvest oracle st)
    ∧ ((harvest C9orc C9h0).cdb.map fun c => (c.source, c.url, c.status))
        = [("gallica", "a/full/max/0/default.jpg", Status.pending),
           ("gallica", "b/full/max/0/default.jpg", Status.pending),
           ("gallica", "c/full/max/0/default.jpg", Status.pending)]
    ∧ harvest C9orc (harvest C9orc C9h0) = harvest C9orc C9h0
    ∧ ((harvest C9orc C9h0).manifests.map fun m => m.mstatus)
        = [MStatus.mdone, MStatus.mdone] := by
  refine ⟨insertCandidate_idem, harvest_idem, by decide, harvest_idem C9orc C9h0, by decide⟩

/-! ## Claim C5 -/

theorem candidateStep_getRow_ne (cap mr : Nat) (oracle : Nat → Fetch)
    (st : EngineState) (c : Cand) {x : Nat} (hne : c.cid ≠ x) :
    getRow (candidateStep cap mr oracle st c).db x = getRow st.db x := by
  rcases candidateStep_db_shape cap mr oracle st c with ⟨g, hdb, hcid, _, _⟩
  rw [hdb]
  exact getRow_updRow_ne hcid hne

theorem candidateStep_cids (cap mr : Nat) (oracle : Nat → Fetch)
    (st : EngineState) (c : Cand) :
    (candidateStep cap mr oracle st c).db.map (fun d => d.cid)
      = st.db.map fun d => d.cid := by
  rcases candidateStep_db_shape cap mr oracle st c with ⟨g, hdb, hcid, _, _⟩
  rw [hdb]
  exact updRow_cid_map _ _ _ hcid

theorem processBatch_getRow (cap mr : Nat) (oracle : Nat → Fetch) {x : Nat} :
    ∀ (l : List Cand) (st : EngineState), (∀ c ∈ l, c.cid ≠ x) →
      getRow (processBatch cap mr oracle st l).db x = getRow st.db x := by
  intro l
  induction l with
  | nil => intro st _; rfl
  | cons c rest ih =>
      intro st hl
      simp only [processBatch]
      by_cases hcap : cap ≤ st.localTotal
      · rw [if_pos hcap]
      · rw [if_neg hcap]
        rw [ih _ (fun d hd => hl d (List.mem_cons_of_mem _ hd))]
        exact candidateStep_getRow_ne cap mr oracle st c (hl c (List.mem_cons_self _ _))

theorem processBatch_cids (cap mr : Nat) (oracle : Nat → Fetch) :
    ∀ (l : List Cand) (st : EngineState),
      (processBatch cap mr oracle st l).db.map (fun d => d.cid)
        = st.db.map fun d => d.cid := by
  intro l
  induction l with
  | nil => intro st; rfl
  | cons c rest ih =>
      intro st
      simp only [processBatch]
      by_cases hcap : cap ≤ st.localTotal
      · rw [if_pos hcap]
      · rw [if_neg hcap]
        rw [ih]
        exact candidateStep_cids cap mr oracle st c

/-- Rows that are not `pending` — in particular `downloaded` and
`downloading` ones — are never touched by any number of batch rounds:
`pick_batch` claims only pending rows. -/
theorem runLoop_getRow_stable (cap mr bs : Nat) (oracle : Nat → Fetch) :
    ∀ (fuel : Nat) (st : EngineState) {x : Nat} {r : Cand},
      NodupIds st.db → getRow st.db x = some r → r.status ≠ Status.pending →
      getRow (runLoop cap mr bs oracle fuel st).db x = some r := by
  intro fuel
  induction fuel with
  | zero => intro st x r _ hget _; exact hget
  | succ n ih =>
      intro st x r hnd hget hst
      simp only [runLoop]
      by_cases hlt : st.localTotal < cap
      · rw [if_pos hlt]
        by_cases hb : (pick_batch st.db bs).isEmpty
        · rw [if_pos hb]
          exact hget
        · rw [if_neg hb]
          have hbatch : ∀ c ∈ pick_batch st.db bs, c.cid ≠ x := by
            intro c hc hcx
            have hmem := pick_batch_mem hc
            have hrmem := getRow_mem hget
            have hcr : c = r := nodup_unique_cid hnd hmem.1 hrmem.1 (by rw [hcx, hrmem.2])
            rw [hcr] at hmem
            exact hst (eligible_pending hmem.2)
          have hnd2 : NodupIds (processBatch cap mr oracle st (pick_batch st.db bs)).db := by
            unfold NodupIds
            rw [processBatch_cids]
            exact hnd
          have hget2 : getRow (processBatch cap mr oracle st (pick_batch st.db bs)).db x
              = some r := by
            rw [processBatch_getRow cap mr oracle _ _ hbatch]
            exact hget
          exact ih _ hnd2 hget2 hst
      · rw [if_neg hlt]
        exact hget

/-- The operator retry reset touches only `failed` rows. -/
theorem getRow_resetFailed {db : List Cand} {x : Nat} {r : Cand}
    (h : getRow db x = some r) (hs : r.status ≠ Status.failed) :
    getRow (resetFailed db) x = some r := by
  induction db with
  | nil => simp [getRow] at h
  | cons d ds ih =>
      by_cases hd : (d.cid == x) = true
      · have hr : d = r := by simpa [getRow, hd] using h
        subst hr
        have hdf : (d.status == Status.failed) = false :=
          beq_eq_false_iff_ne.mpr hs
        simp [resetFailed, getRow, hd, hdf]
      · have hf : (d.cid == x) = false := Bool.not_eq_true _ ▸ hd
        have h2 : getRow ds x = some r := by simpa [getRow, hf] using h
        have ih2 := ih h2
        have hmap : resetFailed (d :: ds)
            = (if d.status == Status.failed
                then { d with status := Status.pending, error := none } else d)
              :: resetFailed ds := rfl
        rw [hmap]
        by_cases hdf : (d.status == Status.failed) = true
        · rw [if_pos hdf]
          simpa [getRow, hf] using ih2
        · rw [if_neg hdf]
          simpa [getRow, hf] using ih2

theorem countEligible_updRow_le (g : Cand → Cand)
    (hg : ∀ y, eligible (g y) = false) :
    ∀ (db : List Cand) (i : Nat), countEligible (updRow db i g) ≤ countEligible db := by
  intro db i
  induction db with
  | nil => exact Nat.le_refl _
  | cons d ds ih =>
      simp only [updRow, countEligible, List.countP_cons] at *
      by_cases hd : (d.cid == i) = true
      · rw [if_pos hd]
        simp only [List.countP_cons, hg d]
        simp
        omega
      · have hf : (d.cid == i) = false := Bool.not_eq_true _ ▸ hd
        rw [hf]
        simp only [Bool.false_eq_true, if_false, List.countP_cons]
        omega

theorem countEligible_updRow_lt (g : Cand → Cand)
    (hg : ∀ y, eligible (g y) = false) :
    ∀ (db : List Cand) (c : Cand), c ∈ db → eligible c = true →
      countEligible (updRow db c.cid g) < countEligible db := by
  intro db
  induction db with
  | nil => intro c hc; cases hc
  | cons d ds ih =>
      intro c hc hel
      simp only [updRow, countEligible, List.countP_cons]
      rcases List.mem_cons.mp hc with h1 | h2
      · subst h1
        have hcc : (c.cid == c.cid) = true := by simp
        rw [if_pos hcc]
        have hle := countEligible_updRow_le g hg ds c.cid
        simp only [countEligible] at hle
        simp only [List.countP_cons, hg c, hel]
        simp
        omega
      · have hlt := ih c h2 hel
        simp only [countEligible] at hlt
        by_cases hd : (d.cid == c.cid) = true
        · rw [if_pos hd]
          simp only [List.countP_cons, hg d]
          simp
          omega
        · have hf : (d.cid == c.cid) = false := Bool.not_eq_true _ ▸ hd
          rw [hf]
          simp only [Bool.false_eq_true, if_false, List.countP_cons]
          omega

theorem processBatch_count_le (cap mr : Nat) (oracle : Nat → Fetch) :
    ∀ (l : List Cand) (st : EngineState),
      countEligible (processBatch cap mr oracle st l).db ≤ countEligible st.db := by
  intro l
  induction l with
  | nil => intro st; exact Nat.le_refl _
  | cons c rest ih =>
      intro st
      simp only [processBatch]
      by_cases hcap : cap ≤ st.localTotal
      · rw [if_pos hcap]
      · rw [if_neg hcap]
        refine Nat.le_trans (ih _) ?_
        rcases candidateStep_db_shape cap mr oracle st c with ⟨g, hdb, _, helig, _⟩
        rw [hdb]
        exact countEligible_updRow_le g helig st.db c.cid

theorem processBatch_count_lt (cap mr : Nat) (oracle : Nat → Fetch)
    (c : Cand) (rest : List Cand) (st : EngineState)
    (hlt : st.localTotal < cap) (hmem : c ∈ st.db) (hel : eligible c = true) :
    countEligible (processBatch cap mr oracle st (c :: rest)).db
      < countEligible st.db := by
  simp only [processBatch]
  rw [if_neg (by omega)]
  refine Nat.lt_of_le_of_lt (processBatch_count_le cap mr oracle rest _) ?_
  rcases candidateStep_db_shape cap mr oracle st c with ⟨g, hdb, _, helig, _⟩
  rw [hdb]
  exact countEligible_updRow_lt g helig st.db c hmem hel

theorem pick_batch_empty_count {db : List Cand} {bs : Nat} (hbs : 0 < bs)
    (h : pick_batch db bs = []) : countEligible db = 0 := by
  have h2 : sortByDim (db.filter eligible) = [] := by
    rcases List.take_eq_nil_iff.mp h with h3 | h3
    · omega
    · exact h3
  have h3 : (db.filter eligible).length = 0 := by
    rw [← length_sortByDim, h2]
    rfl
  rw [countEligible, List.countP_eq_length_filter]
  exact h3

/-- With enough fuel, a run ends only because the cap was reached or
because no eligible pending candidate remains: every claimable Pending
row is attempted. -/
theorem runLoop_drains (cap mr bs : Nat) (oracle : Nat → Fetch) (hbs : 0 < bs) :
    ∀ (fuel : Nat) (st : EngineState), countEligible st.db ≤ fuel →
      cap ≤ (runLoop cap mr bs oracle fuel st).localTotal
      ∨ ∀ c ∈ (runLoop cap mr bs oracle fuel st).db, eligible c = false := by
  intro fuel
  induction fuel with
  | zero =>
      intro st hcount
      right
      have h0 : countEligible st.db = 0 := Nat.le_zero.mp hcount
      intro c hc
      have := List.countP_eq_zero.mp h0 c hc
      exact Bool.not_eq_true _ ▸ this
  | succ n ih =>
      intro st hcount
      simp only [runLoop]
      by_cases hlt : st.localTotal < cap
      · rw [if_pos hlt]
        cases hb : pick_batch st.db bs with
        | nil =>
            simp only [List.isEmpty_nil, if_true]
            right
            have h0 := pick_batch_empty_count hbs hb
            intro c hc
            have := List.countP_eq_zero.mp h0 c hc
            exact Bool.not_eq_true _ ▸ this
        | cons c rest =>
            simp only [List.isEmpty_cons, Bool.false_eq_true, if_false]
            have hcmem : c ∈ pick_batch st.db bs := by
              rw [hb]
              exact List.mem_cons_self _ _
            have hc2 := pick_batch_mem hcmem
            have hdec : countEligible (processBatch cap mr oracle st (c :: rest)).db
                < countEligible st.db :=
              processBatch_count_lt cap mr oracle c rest st hlt hc2.1 hc2.2
            exact ih _ (by omega)
      · rw [if_neg hlt]
        left
        omega

/-- A candidate the crash left in status `downloading`. -/
def C5row : Cand := { mkPending 1 "s5" "u5" none none none with status := Status.downloading }

/-- A restart after the crash: first the operator retry reset, then a
full engine run with budget to spare. -/
def C5run2 : EngineState :=
  runLoop 1000 MAX_RETRIES BATCH_SIZE C3orc 5 (initState (resetFailed [C5row]) [] 0)

/-- C5 counterexample: a candidate that was `downloading` at crash time
is NOT re-attempted by any engine operation — the retry reset touches
only `failed` rows and `pick_batch` selects only `pending` ones, so
after reset plus a whole new run the row still sits in `downloading`,
permanently stuck. -/
theorem C5_resume_claim_cex :
    resetFailed [C5row] = [C5row]
    ∧ (C5run2.db.map fun c => c.status) = [Status.downloading] := by
  refine ⟨rfl, rfl⟩

/-- C5 amended: after a restart, previously `downloaded` rows are left
untouched by any number of batch rounds, and (with enough fuel) a run
ends only at the cap or with every eligible `pending` row attempted —
but rows that were `downloading` at crash time are never reclaimed:
both the whole run and the `retry_failed` reset leave them exactly as
they were, so they remain stuck in `downloading`. -/
theorem C5_resume_stuck (cap mr bs fuel x1 x2 x3 : Nat) (oracle : Nat → Fetch)
    (st : EngineState) (r1 r2 r3 : Cand) (db2 : List Cand) :
    (NodupIds st.db → getRow st.db x1 = some r1 → r1.status = Status.downloaded →
      getRow (runLoop cap mr bs oracle fuel st).db x1 = some r1)
    ∧ (NodupIds st.db → getRow st.db x2 = some r2 → r2.status = Status.downloading →
      getRow (runLoop cap mr bs oracle fuel st).db x2 = some r2)
    ∧ (getRow db2 x3 = some r3 → r3.status = Status.downloading →
      getRow (resetFailed db2) x3 = some r3)
    ∧ (0 < bs → countEligible st.db ≤ fuel →
      cap ≤ (runLoop cap mr bs oracle fuel st).localTotal
      ∨ ∀ c ∈ (runLoop cap mr bs oracle fuel st).db, eligible c = false) := by
  refine ⟨?_, ?_, ?_, ?_⟩
  · intro hnd hget hst
    refine runLoop_getRow_stable cap mr bs oracle fuel st hnd hget ?_
    intro hpd
    rw [hst] at hpd
    cases hpd
  · intro hnd hget hst
    refine runLoop_getRow_stable cap mr bs oracle fuel st hnd hget ?_
    intro hpd
    rw [hst] at hpd
    cases hpd
  · intro hget hst
    refine getRow_resetFailed hget ?_
    intro hfl
    rw [hst] at hfl
    cases hfl
  · intro hbs hfuel
    exact runLoop_drains cap mr bs oracle hbs fuel st hfuel

/-- Downloaded row of the C5 witness store. -/
def C5wdl : Cand := dlRow 1 "w1" [2]

/-- Crashed-mid-download row of the C5 witness store. -/
def C5wstuck : Cand := { mkPending 2 "s6" "u6" none none none with status := Status.downloading }

/-- Still-pending row of the C5 witness store. -/
def C5wpend : Cand := mkPending 3 "s7" "u7" none none none

/-- Oracle of the C5 witness run. -/
def C5worc : Nat → Fetch := fun _ => ⟨some 200, some 1, [.ok [5] 200]⟩

/-- The C5 witness store at restart. -/
def C5wst0 : EngineState := initState [C5wdl, C5wstuck, C5wpend] [] 0

theorem C5_resume_stuck_witness :
    getRow (runLoop 100 3 200 C5worc 1 C5wst0).db 1 = some C5wdl
    ∧ getRow (runLoop 100 3 200 C5worc 1 C5wst0).db 2 = some C5wstuck
    ∧ getRow (resetFailed [C5row]) 1 = some C5row
    ∧ (100 ≤ (runLoop 100 3 200 C5worc 1 C5wst0).localTotal
        ∨ ∀ c ∈ (runLoop 100 3 200 C5worc 1 C5wst0).db, eligible c = false) := by
  have h := C5_resume_stuck 100 3 200 1 1 2 1 C5worc C5wst0 C5wdl C5wstuck C5row [C5row]
  exact ⟨h.1 (by decide) (by decide) (by decide),
         h.2.1 (by decide) (by decide) (by decide),
         h.2.2.1 (by decide) (by decide),
         h.2.2.2 (by decide) (by decide)⟩

end AncientWorld
